import Mathlib

/-!
Shallow embedding of the icrawler concurrency core.

Source files embedded:
  * `icrawler/parser.py` — `Parser.worker_exec` (the fetch/retry/emit worker loop)
  * `icrawler/crawler.py` — `Crawler.crawl` (orchestration and liveness polling)

The worker loop runs concurrently with the other pools: the shared signal
registry, the input queue, the HTTP session and the bounded output queue are
all mutated by other threads.  We model that environment as a family of
oracles indexed by a global clock: each primitive operation the worker
performs (a `signal.get`, a `queue.get`, a `session.get`, a queue push, a
call of the user-supplied `parse` callback) consults the oracle at the
current time and advances the clock by one.  Any interleaving of the other
threads is captured by some choice of oracle functions.

The worker's observable behaviour is a timestamped trace of events
(dequeues, fetch attempts, queue pushes, sleeps, error logs, `task_done`
calls) plus a termination reason.  The two unbounded loops of the source
(the outer `while True` and the inner emission-retry loop) are given fuel;
running out of fuel is reported explicitly and never conflated with a real
termination of the source loop.
-/

namespace ICrawler

/-- An item yielded by the user-supplied extraction callback `parse`.
`Parser.worker_exec` distinguishes exactly three shapes with `isinstance`:
a `dict` (a structured download task), a `str` (a raw locator), and
anything else.  The payload is an opaque identifier. -/
inductive Item where
  | task (id : Nat)
  | loc (id : Nat)
  | other (id : Nat)
deriving DecidableEq, Repr

/-- Result of one push attempt (`self.output(task, timeout=1)` or
`self.input(task, timeout=1)`): success, `queue.Full`, or any other
exception. -/
inductive PushRes where
  | ok
  | full
  | err
deriving DecidableEq, Repr

/-- Result of one `self.in_queue.get(timeout=queue_timeout)` call:
an item, `queue.Empty` after the timeout, or any other exception
(the bare `except:` arm of the source). -/
inductive DequeueRes where
  | item (u : Nat)
  | empty
  | err
deriving DecidableEq, Repr

/-- The concurrent environment of one parser worker, as time-indexed
oracles.  `reach t` and `feeder t` are the values the signal registry
returns for the keys `reach_max_num` and `feeder_exited` when consulted at
time `t` (the registry itself is in `utils.py`, which is outside the
excerpt; per spec §4.1 `get` atomically returns the current value of the
flag).  `dequeue`, `fetch` and `push` give the outcomes of queue and
transport operations; `parse t` gives the behaviour of the user extraction
callback invoked at time `t`: the finite list of items its generator
yields, and whether it raises after the last yield. -/
structure Env where
  reach : Nat → Bool
  feeder : Nat → Bool
  dequeue : Nat → DequeueRes
  fetch : Nat → Bool
  parse : Nat → List Item × Bool
  push : Nat → PushRes

/-- Observable events of the worker loop. -/
inductive Event where
  | dequeued (u : Nat)
  | fetchOk
  | fetchFail
  | pushedOut (id : Nat)
  | pushedIn (id : Nat)
  | sleep
  | errLog
  | taskDone
deriving DecidableEq, Repr

/-- A timestamped event trace. -/
abbrev Trace := List (Nat × Event)

/-- Outcome of the emission-retry loop for a single yielded item
(`while not self.signal.get("reach_max_num"): try ... except ... else: break`). -/
inductive EmitOut where
  | done
  | quota
  | fuelOut
deriving DecidableEq, Repr

/-- Outcome of the `for task in self.parse(response, **kwargs)` loop. -/
inductive SeqOut where
  | completed
  | quotaBroke
  | raised
  | fuelOut
deriving DecidableEq, Repr

/-- Outcome of the per-locator fetch/retry loop (`while retry > 0`). -/
inductive UrlOut where
  | success
  | abandoned
  | raised
  | fuelOut
deriving DecidableEq, Repr

/-- Termination reason of the whole worker loop. -/
inductive ExitReason where
  | quotaExit
  | sourceExit
  | raisedExc
  | fuelOut
deriving DecidableEq, Repr

/-- Emission-retry loop for one yielded item, lines 95–111 of `parser.py`:

```
while not self.signal.get("reach_max_num"):
    try:
        if isinstance(task, dict):   self.output(task, timeout=1)
        elif isinstance(task, str):  self.input(task, timeout=1)
    except queue.Full:      time.sleep(1)
    except Exception as e:  self.logger.error(...)
    else:                   break
```

Each iteration consults the `reach_max_num` signal; if unset it attempts
the push (no queue operation at all for an item of neither shape, so the
`else: break` fires immediately).  `queue.Full` sleeps and retries, any
other push exception logs and retries; the loop exits only on a successful
pass or on observing the quota signal.  Returns the trace, the new clock,
and the outcome. -/
def emitItem (env : Env) (item : Item) : Nat → Nat → Trace × Nat × EmitOut
  | 0, t => ([], t, EmitOut.fuelOut)
  | f + 1, t =>
    if env.reach t then ([], t + 1, EmitOut.quota)
    else
      match item with
      | Item.task id =>
        match env.push (t + 1) with
        | PushRes.ok => ([(t + 1, Event.pushedOut id)], t + 2, EmitOut.done)
        | PushRes.full =>
          let r := emitItem env item f (t + 2)
          ((t + 1, Event.sleep) :: r.1, r.2)
        | PushRes.err =>
          let r := emitItem env item f (t + 2)
          ((t + 1, Event.errLog) :: r.1, r.2)
      | Item.loc id =>
        match env.push (t + 1) with
        | PushRes.ok => ([(t + 1, Event.pushedIn id)], t + 2, EmitOut.done)
        | PushRes.full =>
          let r := emitItem env item f (t + 2)
          ((t + 1, Event.sleep) :: r.1, r.2)
        | PushRes.err =>
          let r := emitItem env item f (t + 2)
          ((t + 1, Event.errLog) :: r.1, r.2)
      | Item.other _ => ([], t + 1, EmitOut.done)

/-- The `for task in self.parse(response, **kwargs)` loop, lines 94–113.
`items` is the list the generator will yield, `raises` whether advancing
the generator past the last yield raises (a raising callback with no
yields is `([], true)`).  After each item's emission loop the source
re-checks the quota signal (line 112) and breaks out of the `for` if set,
abandoning the remaining items — in which case the generator is never
advanced again, so a pending raise is not reached.  `efuel` is the fuel
given to each item's emission-retry loop. -/
def emitSeq (env : Env) (efuel : Nat) :
    List Item → Bool → Nat → Trace × Nat × SeqOut
  | [], raises, t =>
    ([], t, if raises then SeqOut.raised else SeqOut.completed)
  | item :: rest, raises, t =>
    let r := emitItem env item efuel t
    match r.2.2 with
    | EmitOut.fuelOut => (r.1, r.2.1, SeqOut.fuelOut)
    | _ =>
      if env.reach r.2.1 then (r.1, r.2.1 + 1, SeqOut.quotaBroke)
      else
        let s := emitSeq env efuel rest raises (r.2.1 + 1)
        (r.1 ++ s.1, s.2)

/-- The per-locator fetch/retry loop, lines 80–117 of `parser.py`:

```
retry = max_retry
while retry > 0:
    try:    response = self.session.get(url, ...)
    except Exception as e:  self.logger.error(...)
    else:
        for task in self.parse(response, **kwargs):
            ...emission...
        self.in_queue.task_done()
        break
    finally:  retry -= 1
```

A failed fetch is logged and retried; the `finally` decrements the budget
on success and failure alike, but the success path `break`s so only
failures consume further attempts.  On fetch success the extraction
callback is consulted and its items emitted; `task_done` runs after the
`for` loop both when it completes and when the quota check breaks it
mid-sequence.  An exception raised by the callback occurs in the `else:`
suite of the `try`, which the `except` arm does NOT cover, so it
propagates (outcome `raised`) and `task_done` is skipped. -/
def fetchLoop (env : Env) (efuel : Nat) : Nat → Nat → Trace × Nat × UrlOut
  | 0, t => ([], t, UrlOut.abandoned)
  | r + 1, t =>
    if env.fetch t then
      let pr := env.parse (t + 1)
      let s := emitSeq env efuel pr.1 pr.2 (t + 2)
      match s.2.2 with
      | SeqOut.completed =>
        ((t, Event.fetchOk) :: s.1 ++ [(s.2.1, Event.taskDone)], s.2.1, UrlOut.success)
      | SeqOut.quotaBroke =>
        ((t, Event.fetchOk) :: s.1 ++ [(s.2.1, Event.taskDone)], s.2.1, UrlOut.success)
      | SeqOut.raised => ((t, Event.fetchOk) :: s.1, s.2.1, UrlOut.raised)
      | SeqOut.fuelOut => ((t, Event.fetchOk) :: s.1, s.2.1, UrlOut.fuelOut)
    else
      let k := fetchLoop env efuel r (t + 1)
      ((t, Event.fetchFail) :: k.1, k.2)

/-- The worker loop `Parser.worker_exec`, lines 58–118 of `parser.py`.
Top of each iteration: check `reach_max_num` (break if set), then dequeue
a locator with timeout; `queue.Empty` breaks if `feeder_exited` is set and
otherwise keeps waiting; any other dequeue exception is logged and the
loop continues.  A dequeued locator runs the fetch/retry loop; an
uncaught exception there (from the extraction callback) propagates out of
`worker_exec`, ending the thread with `raisedExc`.  `fuel` bounds the
number of outer iterations, `efuel` the emission-retry loops. -/
def worker_exec (env : Env) (maxRetry efuel : Nat) : Nat → Nat → Trace × Nat × ExitReason
  | 0, t => ([], t, ExitReason.fuelOut)
  | f + 1, t =>
    if env.reach t then ([], t + 1, ExitReason.quotaExit)
    else
      match env.dequeue (t + 1) with
      | DequeueRes.empty =>
        if env.feeder (t + 2) then ([], t + 3, ExitReason.sourceExit)
        else worker_exec env maxRetry efuel f (t + 3)
      | DequeueRes.err =>
        let w := worker_exec env maxRetry efuel f (t + 2)
        ((t + 1, Event.errLog) :: w.1, w.2)
      | DequeueRes.item u =>
        let k := fetchLoop env efuel maxRetry (t + 2)
        match k.2.2 with
        | UrlOut.raised => ((t + 1, Event.dequeued u) :: k.1, k.2.1, ExitReason.raisedExc)
        | UrlOut.fuelOut => ((t + 1, Event.dequeued u) :: k.1, k.2.1, ExitReason.fuelOut)
        | _ =>
          let w := worker_exec env maxRetry efuel f k.2.1
          ((t + 1, Event.dequeued u) :: k.1 ++ w.1, w.2)

/-- The locator ids of the `pushedIn` events of a trace, in order: items
the worker put back onto its own input queue. -/
def pushedInIds (tr : Trace) : List Nat :=
  tr.filterMap fun p =>
    match p.2 with
    | Event.pushedIn id => some id
    | _ => none

/-- `worker_exec` again, with the worker's own input queue made explicit
as a FIFO list instead of a dequeue oracle.  This variant models the
situation after the feeder has exited: no other thread enqueues, so
`in_queue.get` returns the head of the queue when non-empty and times out
with `queue.Empty` when empty, and the only growth is the worker's own
`self.input(...)` push-backs (the `pushedIn` events of the fetch loop's
trace, appended in order).  All other oracles are as in `worker_exec`. -/
def worker_execQ (env : Env) (maxRetry efuel : Nat) :
    Nat → Nat → List Nat → Trace × Nat × List Nat × ExitReason
  | 0, t, q => ([], t, q, ExitReason.fuelOut)
  | f + 1, t, q =>
    if env.reach t then ([], t + 1, q, ExitReason.quotaExit)
    else
      match q with
      | [] =>
        if env.feeder (t + 2) then ([], t + 3, [], ExitReason.sourceExit)
        else worker_execQ env maxRetry efuel f (t + 3) []
      | u :: rest =>
        let k := fetchLoop env efuel maxRetry (t + 2)
        match k.2.2 with
        | UrlOut.raised =>
          ((t + 1, Event.dequeued u) :: k.1, k.2.1, rest ++ pushedInIds k.1, ExitReason.raisedExc)
        | UrlOut.fuelOut =>
          ((t + 1, Event.dequeued u) :: k.1, k.2.1, rest ++ pushedInIds k.1, ExitReason.fuelOut)
        | _ =>
          let w := worker_execQ env maxRetry efuel f k.2.1 (rest ++ pushedInIds k.1)
          ((t + 1, Event.dequeued u) :: k.1 ++ w.1, w.2)

/-- Whether an event is a push to some queue (an emission). -/
def Event.isPush : Event → Bool
  | Event.pushedOut _ => true
  | Event.pushedIn _ => true
  | _ => false

/-- Whether an event is a fetch attempt (success or failure). -/
def Event.isAttempt : Event → Bool
  | Event.fetchOk => true
  | Event.fetchFail => true
  | _ => false

/-- Number of push events in a trace. -/
def pushCount (tr : Trace) : Nat := tr.countP fun p => p.2.isPush

/-- Number of fetch attempts in a trace. -/
def attemptCount (tr : Trace) : Nat := tr.countP fun p => p.2.isAttempt

/-- Number of `task_done` calls in a trace. -/
def taskDoneCount (tr : Trace) : Nat :=
  tr.countP fun p => p.2 = Event.taskDone

/-- The pushed items of a trace in order, reconstructing the shape:
`pushedOut id` came from `Item.task id`, `pushedIn id` from `Item.loc id`. -/
def pushedItems (tr : Trace) : List Item :=
  tr.filterMap fun p =>
    match p.2 with
    | Event.pushedOut id => some (Item.task id)
    | Event.pushedIn id => some (Item.loc id)
    | _ => none

/-- The locator ids of the `dequeued` events of a trace, in order. -/
def dequeuedIds (tr : Trace) : List Nat :=
  tr.filterMap fun p =>
    match p.2 with
    | Event.dequeued u => some u
    | _ => none

/-- The items of an extraction result that actually get pushed somewhere:
`other`-shaped items match neither `isinstance` test and are silently
dropped. -/
def emittable (items : List Item) : List Item :=
  items.filter fun i =>
    match i with
    | Item.other _ => false
    | _ => true

/-- The environment of one `Crawler.crawl()` call: the liveness of each
pool as seen by `is_alive()` at each poll iteration, and whether each
pool's input queue is empty when the poll loop exits (the `in_queue.empty()`
checks of lines 185–189 of `crawler.py`). -/
structure CrawlEnv where
  feederAlive : Nat → Bool
  parserAlive : Nat → Bool
  downloaderAlive : Nat → Bool
  feederQEmpty : Bool
  parserQEmpty : Bool
  downloaderQEmpty : Bool

/-- The signal registry's three flags.  Modelled from the spec: the
`Signal` class lives in `utils.py` outside the excerpt; per spec §4.1,
`set` stores a flag and `reset()` restores all flags to their initial
false values. -/
structure Sig where
  feederExited : Bool
  parserExited : Bool
  reachMaxNum : Bool
deriving DecidableEq, Repr

/-- `self.signal.reset()`: all three flags false. -/
def Sig.reset : Sig := ⟨false, false, false⟩

/-- Observable actions of `Crawler.crawl()`.  The `clear*` actions carry
the `discard_remaining` argument of `clear_buffer`; modelled from the
spec: `clear_buffer` is defined in `utils.py` outside the excerpt, and per
spec §4.2 its argument defaults to a soft drain (false) unless forced. -/
inductive CAct where
  | resetSignals
  | startFeeder
  | startParser
  | startDownloader
  | setFeederExited
  | setParserExited
  | pollSleep
  | clearFeeder (discard : Bool)
  | clearParser (discard : Bool)
  | clearDownloader (discard : Bool)
deriving DecidableEq, Repr

/-- The liveness poll loop of `crawl()`, lines 176–183 of `crawler.py`:

```
while True:
    if not self.feeder.is_alive():     self.signal.set(feeder_exited=True)
    if not self.parser.is_alive():     self.signal.set(parser_exited=True)
    if not self.downloader.is_alive(): break
    time.sleep(1)
```

`i` is the poll iteration index, `s` the signal state.  The loop body is
split into `pollSig` (the signal updates of one iteration) and
`pollActs` (the corresponding actions); `pollLoop` returns the actions
performed, the final signal state, and whether the loop exited (false =
fuel ran out while the downloader was still alive). -/
def pollSig (w : CrawlEnv) (i : Nat) (s : Sig) : Sig :=
  let s1 : Sig := if w.feederAlive i then s else { s with feederExited := true }
  if w.parserAlive i then s1 else { s1 with parserExited := true }

/-- The signal-setting actions of one poll iteration. -/
def pollActs (w : CrawlEnv) (i : Nat) : List CAct :=
  (if w.feederAlive i then [] else [CAct.setFeederExited]) ++
  (if w.parserAlive i then [] else [CAct.setParserExited])

def pollLoop (w : CrawlEnv) : Nat → Nat → Sig → List CAct × Sig × Bool
  | 0, _, s => ([], s, false)
  | f + 1, i, s =>
    if w.downloaderAlive i then
      let r := pollLoop w f (i + 1) (pollSig w i s)
      (pollActs w i ++ [CAct.pollSleep] ++ r.1, r.2)
    else (pollActs w i, pollSig w i s, true)

/-- `Crawler.crawl()`, lines 160–192 of `crawler.py`: reset the signal
registry, start the feeder, parser and downloader pools in that order,
poll liveness until the downloader pool dies, then clear the non-empty
input buffers — feeder and parser with the soft default, the downloader
with `clear_buffer(True)`.  The buffer-clearing only happens if the poll
loop actually exited. -/
def crawl (w : CrawlEnv) (fuel : Nat) : List CAct × Sig × Bool :=
  let r := pollLoop w fuel 0 Sig.reset
  let post : List CAct :=
    (if w.feederQEmpty then [] else [CAct.clearFeeder false]) ++
    (if w.parserQEmpty then [] else [CAct.clearParser false]) ++
    (if w.downloaderQEmpty then [] else [CAct.clearDownloader true])
  ([CAct.resetSignals, CAct.startFeeder, CAct.startParser, CAct.startDownloader] ++
     r.1 ++ (if r.2.2 then post else []),
   r.2.1, r.2.2)

/-! ### Helper lemmas -/

/-- Every push performed by the emission-retry loop happens one tick after
a consultation of the `reach_max_num` signal that returned false. -/
theorem emitItem_push_prev (env : Env) (item : Item) :
    ∀ f t, ∀ p ∈ (emitItem env item f t).1, p.2.isPush = true →
      ∃ s, p.1 = s + 1 ∧ env.reach s = false := by
  intro f
  induction f with
  | zero => intro t p hp; simp [emitItem] at hp
  | succ f ih =>
    intro t p hp hpush
    by_cases hr : env.reach t
    · simp [emitItem, hr] at hp
    · cases item with
      | task id =>
        simp only [emitItem, hr, if_false, Bool.false_eq_true] at hp
        cases hpk : env.push (t + 1) with
        | ok =>
          simp [hpk] at hp
          exact ⟨t, by rw [hp], by simpa using hr⟩
        | full =>
          simp [hpk] at hp
          rcases hp with h | h
          · rw [h] at hpush; simp [Event.isPush] at hpush
          · exact ih _ p h hpush
        | err =>
          simp [hpk] at hp
          rcases hp with h | h
          · rw [h] at hpush; simp [Event.isPush] at hpush
          · exact ih _ p h hpush
      | loc id =>
        simp only [emitItem, hr, if_false, Bool.false_eq_true] at hp
        cases hpk : env.push (t + 1) with
        | ok =>
          simp [hpk] at hp
          exact ⟨t, by rw [hp], by simpa using hr⟩
        | full =>
          simp [hpk] at hp
          rcases hp with h | h
          · rw [h] at hpush; simp [Event.isPush] at hpush
          · exact ih _ p h hpush
        | err =>
          simp [hpk] at hp
          rcases hp with h | h
          · rw [h] at hpush; simp [Event.isPush] at hpush
          · exact ih _ p h hpush
      | other id => simp [emitItem, hr] at hp

/-- As `emitItem_push_prev`, lifted to the emission loop over a whole
extraction sequence. -/
theorem emitSeq_push_prev (env : Env) (efuel : Nat) :
    ∀ items raises t, ∀ p ∈ (emitSeq env efuel items raises t).1, p.2.isPush = true →
      ∃ s, p.1 = s + 1 ∧ env.reach s = false := by
  intro items
  induction items with
  | nil => intro raises t p hp; simp [emitSeq] at hp
  | cons item rest ih =>
    intro raises t p hp hpush
    simp only [emitSeq] at hp
    rcases ho : (emitItem env item efuel t).2.2 with _ | _ | _ <;> rw [ho] at hp
    · by_cases hr : env.reach (emitItem env item efuel t).2.1 <;> simp [hr] at hp
      · exact emitItem_push_prev env item efuel t p hp hpush
      · rcases hp with h | h
        · exact emitItem_push_prev env item efuel t p h hpush
        · exact ih _ _ p h hpush
    · by_cases hr : env.reach (emitItem env item efuel t).2.1 <;> simp [hr] at hp
      · exact emitItem_push_prev env item efuel t p hp hpush
      · rcases hp with h | h
        · exact emitItem_push_prev env item efuel t p h hpush
        · exact ih _ _ p h hpush
    · exact emitItem_push_prev env item efuel t p hp hpush

/-- As `emitItem_push_prev`, lifted to the per-locator fetch/retry loop. -/
theorem fetchLoop_push_prev (env : Env) (efuel : Nat) :
    ∀ r t, ∀ p ∈ (fetchLoop env efuel r t).1, p.2.isPush = true →
      ∃ s, p.1 = s + 1 ∧ env.reach s = false := by
  intro r
  induction r with
  | zero => intro t p hp; simp [fetchLoop] at hp
  | succ r ih =>
    intro t p hp hpush
    simp only [fetchLoop] at hp
    by_cases hf : env.fetch t
    · simp only [hf, if_true] at hp
      rcases ho : (emitSeq env efuel (env.parse (t + 1)).1 (env.parse (t + 1)).2 (t + 2)).2.2
        with _ | _ | _ | _ <;> rw [ho] at hp <;> simp at hp
      · rcases hp with h | h | h
        · rw [h] at hpush; simp [Event.isPush] at hpush
        · exact emitSeq_push_prev env efuel _ _ _ p h hpush
        · rw [h] at hpush; simp [Event.isPush] at hpush
      · rcases hp with h | h | h
        · rw [h] at hpush; simp [Event.isPush] at hpush
        · exact emitSeq_push_prev env efuel _ _ _ p h hpush
        · rw [h] at hpush; simp [Event.isPush] at hpush
      · rcases hp with h | h
        · rw [h] at hpush; simp [Event.isPush] at hpush
        · exact emitSeq_push_prev env efuel _ _ _ p h hpush
      · rcases hp with h | h
        · rw [h] at hpush; simp [Event.isPush] at hpush
        · exact emitSeq_push_prev env efuel _ _ _ p h hpush
    · simp only [hf, if_false, Bool.false_eq_true, List.mem_cons] at hp
      rcases hp with h | h
      · rw [h] at hpush; simp [Event.isPush] at hpush
      · exact ih _ p h hpush

/-- As `emitItem_push_prev`, lifted to the whole worker loop. -/
theorem worker_exec_push_prev (env : Env) (maxRetry efuel : Nat) :
    ∀ f t, ∀ p ∈ (worker_exec env maxRetry efuel f t).1, p.2.isPush = true →
      ∃ s, p.1 = s + 1 ∧ env.reach s = false := by
  intro f
  induction f with
  | zero => intro t p hp; simp [worker_exec] at hp
  | succ f ih =>
    intro t p hp hpush
    simp only [worker_exec] at hp
    by_cases hr : env.reach t
    · simp [hr] at hp
    · simp only [hr, if_false, Bool.false_eq_true] at hp
      cases hd : env.dequeue (t + 1) with
      | empty =>
        rw [hd] at hp
        by_cases hfe : env.feeder (t + 2) <;> simp [hfe] at hp
        · exact ih _ p hp hpush
      | err =>
        rw [hd] at hp
        simp at hp
        rcases hp with h | h
        · rw [h] at hpush; simp [Event.isPush] at hpush
        · exact ih _ p h hpush
      | item u =>
        rw [hd] at hp
        rcases ho : (fetchLoop env efuel maxRetry (t + 2)).2.2
          with _ | _ | _ | _ <;> rw [ho] at hp <;> simp at hp
        · rcases hp with h | h | h
          · rw [h] at hpush; simp [Event.isPush] at hpush
          · exact fetchLoop_push_prev env efuel _ _ p h hpush
          · exact ih _ p h hpush
        · rcases hp with h | h | h
          · rw [h] at hpush; simp [Event.isPush] at hpush
          · exact fetchLoop_push_prev env efuel _ _ p h hpush
          · exact ih _ p h hpush
        · rcases hp with h | h
          · rw [h] at hpush; simp [Event.isPush] at hpush
          · exact fetchLoop_push_prev env efuel _ _ p h hpush
        · rcases hp with h | h
          · rw [h] at hpush; simp [Event.isPush] at hpush
          · exact fetchLoop_push_prev env efuel _ _ p h hpush

/-- The emission loop over an extraction sequence reports `raised` only
when the generator's pending raise is actually reached. -/
theorem emitSeq_ne_raised (env : Env) (efuel : Nat) :
    ∀ items t, (emitSeq env efuel items false t).2.2 ≠ SeqOut.raised := by
  intro items
  induction items with
  | nil => intro t; simp [emitSeq]
  | cons item rest ih =>
    intro t
    simp only [emitSeq]
    rcases ho : (emitItem env item efuel t).2.2 with _ | _ | _ <;> simp
    · by_cases hr : env.reach (emitItem env item efuel t).2.1 <;> simp [hr]
      exact ih _
    · by_cases hr : env.reach (emitItem env item efuel t).2.1 <;> simp [hr]
      exact ih _

/-- If the extraction callback never raises, the fetch/retry loop never
reports an uncaught exception. -/
theorem fetchLoop_ne_raised (env : Env) (efuel : Nat)
    (h : ∀ s, (env.parse s).2 = false) :
    ∀ r t, (fetchLoop env efuel r t).2.2 ≠ UrlOut.raised := by
  intro r
  induction r with
  | zero => intro t; simp [fetchLoop]
  | succ r ih =>
    intro t
    simp only [fetchLoop]
    by_cases hf : env.fetch t <;> simp [hf]
    · rcases ho : (emitSeq env efuel (env.parse (t + 1)).1 (env.parse (t + 1)).2 (t + 2)).2.2
        with _ | _ | _ | _ <;> simp [ho]
      rw [h (t + 1)] at ho
      exact absurd ho (emitSeq_ne_raised env efuel _ _)
    · exact ih _

/-! ### C1 and C2 -/

/-- C1: once the `reach_max_num` signal is set and stays set, a parser
worker emits no further item — every push in the worker's trace happens no
later than the set time (the emission loop skips the pending item and the
sequence is abandoned), and any top-of-loop quota check at or after that
time terminates the worker at once with the quota exit, performing no
event at all. -/
theorem c1_quota_stops_worker (env : Env) (maxRetry efuel t0 : Nat)
    (mono : ∀ a b : Nat, a ≤ b → env.reach a = true → env.reach b = true)
    (h0 : env.reach t0 = true) :
    (∀ f t, t0 ≤ t →
      worker_exec env maxRetry efuel (f + 1) t = ([], t + 1, ExitReason.quotaExit)) ∧
    (∀ f t, ∀ p ∈ (worker_exec env maxRetry efuel f t).1, p.2.isPush = true → p.1 ≤ t0) := by
  constructor
  · intro f t ht
    have hr : env.reach t = true := mono t0 t ht h0
    simp [worker_exec, hr]
  · intro f t p hp hpush
    obtain ⟨s, hs1, hs2⟩ := worker_exec_push_prev env maxRetry efuel f t p hp hpush
    by_contra hgt
    push_neg at hgt
    have hst : t0 ≤ s := by omega
    have := mono t0 s hst h0
    rw [this] at hs2
    exact absurd hs2 (by simp)

/-- An environment in which the quota signal is set from the start. -/
def cenvQuota : Env :=
  ⟨fun _ => true, fun _ => false, fun _ => DequeueRes.item 7, fun _ => true,
   fun _ => ([Item.task 1], false), fun _ => PushRes.ok⟩

/-- Witness for `c1_quota_stops_worker` at a concrete environment whose
quota signal is set from time 0. -/
theorem c1_quota_stops_worker_witness :
    (∀ a b : Nat, a ≤ b → cenvQuota.reach a = true → cenvQuota.reach b = true) ∧
    cenvQuota.reach 0 = true ∧
    ((∀ f t, 0 ≤ t →
       worker_exec cenvQuota 3 1 (f + 1) t = ([], t + 1, ExitReason.quotaExit)) ∧
     (∀ f t, ∀ p ∈ (worker_exec cenvQuota 3 1 f t).1, p.2.isPush = true → p.1 ≤ 0)) :=
  ⟨fun _ _ _ h => h, rfl, c1_quota_stops_worker cenvQuota 3 1 0 (fun _ _ _ h => h) rfl⟩

/-- An environment whose extraction callback raises immediately: the
dequeue always yields locator 7, the fetch succeeds, and the `parse`
generator raises before its first yield. -/
def cenvRaise : Env :=
  ⟨fun _ => false, fun _ => false, fun _ => DequeueRes.item 7, fun _ => true,
   fun _ => ([], true), fun _ => PushRes.ok⟩

/-- C2 counterexample: with a raising extraction callback the worker loop
terminates by an uncaught exception — `worker_exec` does raise, refuting
the claim that no exception ever propagates out of the worker loop.  The
raise happens in the `else:` suite of the fetch `try`, which its `except`
arm does not cover. -/
theorem c2_counterexample :
    worker_exec cenvRaise 3 1 1 0 =
      ([(1, Event.dequeued 7), (2, Event.fetchOk)], 4, ExitReason.raisedExc) := by
  rfl

/-- C2 amended: for every behaviour of the transport (`fetch` may fail
every time), of the queues (pushes may fail arbitrarily, dequeues may
raise), provided the user extraction callback itself never raises, no
exception propagates out of the worker loop: fetch and emission failures
are logged and converted to retry or abandon decisions. -/
theorem c2_no_raise_when_callback_clean (env : Env)
    (h : ∀ s, (env.parse s).2 = false) :
    ∀ maxRetry efuel f t,
      (worker_exec env maxRetry efuel f t).2.2 ≠ ExitReason.raisedExc := by
  intro maxRetry efuel f
  induction f with
  | zero => intro t; simp [worker_exec]
  | succ f ih =>
    intro t
    simp only [worker_exec]
    by_cases hr : env.reach t <;> simp [hr]
    cases hd : env.dequeue (t + 1) with
    | empty =>
      by_cases hfe : env.feeder (t + 2) <;> simp [hfe]
      exact ih _
    | err => exact ih _
    | item u =>
      rcases ho : (fetchLoop env efuel maxRetry (t + 2)).2.2 with _ | _ | _ | _ <;> simp [ho]
      · exact ih _
      · exact ih _
      · exact absurd ho (fetchLoop_ne_raised env efuel h maxRetry _)

/-- A benign environment: the callback never raises, while the transport
always fails and the push always raises a non-Full exception. -/
def cenvBenign : Env :=
  ⟨fun _ => false, fun t => 6 ≤ t,
   fun t => if t ≤ 1 then DequeueRes.item 3 else DequeueRes.empty,
   fun _ => false, fun _ => ([Item.task 1], false), fun _ => PushRes.err⟩

/-- Witness for `c2_no_raise_when_callback_clean` at a concrete
environment. -/
theorem c2_no_raise_when_callback_clean_witness :
    (∀ s, (cenvBenign.parse s).2 = false) ∧
    (worker_exec cenvBenign 3 2 5 0).2.2 ≠ ExitReason.raisedExc :=
  ⟨fun _ => rfl, c2_no_raise_when_callback_clean cenvBenign (fun _ => rfl) 3 2 5 0⟩

/-- Characterisation of the events the emission-retry loop can produce:
sleeps, error logs, and pushes whose shape matches the item's shape. -/
theorem emitItem_events (env : Env) (item : Item) :
    ∀ f t, ∀ p ∈ (emitItem env item f t).1,
      p.2 = Event.sleep ∨ p.2 = Event.errLog ∨
      (∃ id, item = Item.task id ∧ p.2 = Event.pushedOut id) ∨
      (∃ id, item = Item.loc id ∧ p.2 = Event.pushedIn id) := by
  intro f
  induction f with
  | zero => intro t p hp; simp [emitItem] at hp
  | succ f ih =>
    intro t p hp
    by_cases hr : env.reach t
    · simp [emitItem, hr] at hp
    · cases item with
      | task id =>
        simp only [emitItem, hr, if_false, Bool.false_eq_true] at hp
        cases hpk : env.push (t + 1) with
        | ok => simp [hpk] at hp; rw [hp]; exact Or.inr (Or.inr (Or.inl ⟨id, rfl, rfl⟩))
        | full =>
          simp [hpk] at hp
          rcases hp with h | h
          · rw [h]; exact Or.inl rfl
          · exact ih _ p h
        | err =>
          simp [hpk] at hp
          rcases hp with h | h
          · rw [h]; exact Or.inr (Or.inl rfl)
          · exact ih _ p h
      | loc id =>
        simp only [emitItem, hr, if_false, Bool.false_eq_true] at hp
        cases hpk : env.push (t + 1) with
        | ok => simp [hpk] at hp; rw [hp]; exact Or.inr (Or.inr (Or.inr ⟨id, rfl, rfl⟩))
        | full =>
          simp [hpk] at hp
          rcases hp with h | h
          · rw [h]; exact Or.inl rfl
          · exact ih _ p h
        | err =>
          simp [hpk] at hp
          rcases hp with h | h
          · rw [h]; exact Or.inr (Or.inl rfl)
          · exact ih _ p h
      | other id => simp [emitItem, hr] at hp

/-- Characterisation of the events of the emission loop over an
extraction sequence. -/
theorem emitSeq_events (env : Env) (efuel : Nat) :
    ∀ items raises t, ∀ p ∈ (emitSeq env efuel items raises t).1,
      p.2 = Event.sleep ∨ p.2 = Event.errLog ∨
      (∃ id, Item.task id ∈ items ∧ p.2 = Event.pushedOut id) ∨
      (∃ id, Item.loc id ∈ items ∧ p.2 = Event.pushedIn id) := by
  intro items
  induction items with
  | nil => intro raises t p hp; simp [emitSeq] at hp
  | cons item rest ih =>
    intro raises t p hp
    have lift : p.2 = Event.sleep ∨ p.2 = Event.errLog ∨
        (∃ id, item = Item.task id ∧ p.2 = Event.pushedOut id) ∨
        (∃ id, item = Item.loc id ∧ p.2 = Event.pushedIn id) →
        p.2 = Event.sleep ∨ p.2 = Event.errLog ∨
        (∃ id, Item.task id ∈ item :: rest ∧ p.2 = Event.pushedOut id) ∨
        (∃ id, Item.loc id ∈ item :: rest ∧ p.2 = Event.pushedIn id) := by
      rintro (h | h | ⟨id, hi, he⟩ | ⟨id, hi, he⟩)
      · exact Or.inl h
      · exact Or.inr (Or.inl h)
      · exact Or.inr (Or.inr (Or.inl ⟨id, by rw [← hi]; exact List.mem_cons_self _ _, he⟩))
      · exact Or.inr (Or.inr (Or.inr ⟨id, by rw [← hi]; exact List.mem_cons_self _ _, he⟩))
    have liftr : p.2 = Event.sleep ∨ p.2 = Event.errLog ∨
        (∃ id, Item.task id ∈ rest ∧ p.2 = Event.pushedOut id) ∨
        (∃ id, Item.loc id ∈ rest ∧ p.2 = Event.pushedIn id) →
        p.2 = Event.sleep ∨ p.2 = Event.errLog ∨
        (∃ id, Item.task id ∈ item :: rest ∧ p.2 = Event.pushedOut id) ∨
        (∃ id, Item.loc id ∈ item :: rest ∧ p.2 = Event.pushedIn id) := by
      rintro (h | h | ⟨id, hi, he⟩ | ⟨id, hi, he⟩)
      · exact Or.inl h
      · exact Or.inr (Or.inl h)
      · exact Or.inr (Or.inr (Or.inl ⟨id, List.mem_cons_of_mem _ hi, he⟩))
      · exact Or.inr (Or.inr (Or.inr ⟨id, List.mem_cons_of_mem _ hi, he⟩))
    simp only [emitSeq] at hp
    rcases ho : (emitItem env item efuel t).2.2 with _ | _ | _ <;> rw [ho] at hp
    · by_cases hr : env.reach (emitItem env item efuel t).2.1 <;> simp [hr] at hp
      · exact lift (emitItem_events env item efuel t p hp)
      · rcases hp with h | h
        · exact lift (emitItem_events env item efuel t p h)
        · exact liftr (ih _ _ p h)
    · by_cases hr : env.reach (emitItem env item efuel t).2.1 <;> simp [hr] at hp
      · exact lift (emitItem_events env item efuel t p hp)
      · rcases hp with h | h
        · exact lift (emitItem_events env item efuel t p h)
        · exact liftr (ih _ _ p h)
    · exact lift (emitItem_events env item efuel t p hp)

/-- Characterisation of the events of the fetch/retry loop: in particular
it contains no `dequeued` events, and every push traces back to an item
of some extraction result. -/
theorem fetchLoop_events (env : Env) (efuel : Nat) :
    ∀ r t, ∀ p ∈ (fetchLoop env efuel r t).1,
      p.2 = Event.fetchOk ∨ p.2 = Event.fetchFail ∨ p.2 = Event.taskDone ∨
      p.2 = Event.sleep ∨ p.2 = Event.errLog ∨
      (∃ id s, Item.task id ∈ (env.parse s).1 ∧ p.2 = Event.pushedOut id) ∨
      (∃ id s, Item.loc id ∈ (env.parse s).1 ∧ p.2 = Event.pushedIn id) := by
  intro r
  induction r with
  | zero => intro t p hp; simp [fetchLoop] at hp
  | succ r ih =>
    intro t p hp
    have emcase : p ∈ (emitSeq env efuel (env.parse (t + 1)).1 (env.parse (t + 1)).2 (t + 2)).1 →
        p.2 = Event.fetchOk ∨ p.2 = Event.fetchFail ∨ p.2 = Event.taskDone ∨
        p.2 = Event.sleep ∨ p.2 = Event.errLog ∨
        (∃ id s, Item.task id ∈ (env.parse s).1 ∧ p.2 = Event.pushedOut id) ∨
        (∃ id s, Item.loc id ∈ (env.parse s).1 ∧ p.2 = Event.pushedIn id) := by
      intro h
      rcases emitSeq_events env efuel _ _ _ p h with h | h | ⟨id, hi, he⟩ | ⟨id, hi, he⟩
      · exact Or.inr (Or.inr (Or.inr (Or.inl h)))
      · exact Or.inr (Or.inr (Or.inr (Or.inr (Or.inl h))))
      · exact Or.inr (Or.inr (Or.inr (Or.inr (Or.inr (Or.inl ⟨id, t + 1, hi, he⟩)))))
      · exact Or.inr (Or.inr (Or.inr (Or.inr (Or.inr (Or.inr ⟨id, t + 1, hi, he⟩)))))
    simp only [fetchLoop] at hp
    by_cases hf : env.fetch t
    · simp only [hf, if_true] at hp
      rcases ho : (emitSeq env efuel (env.parse (t + 1)).1 (env.parse (t + 1)).2 (t + 2)).2.2
        with _ | _ | _ | _ <;> rw [ho] at hp <;> simp at hp
      · rcases hp with h | h | h
        · rw [h]; exact Or.inl rfl
        · exact emcase h
        · rw [h]; exact Or.inr (Or.inr (Or.inl rfl))
      · rcases hp with h | h | h
        · rw [h]; exact Or.inl rfl
        · exact emcase h
        · rw [h]; exact Or.inr (Or.inr (Or.inl rfl))
      · rcases hp with h | h
        · rw [h]; exact Or.inl rfl
        · exact emcase h
      · rcases hp with h | h
        · rw [h]; exact Or.inl rfl
        · exact emcase h
    · simp only [hf, if_false, Bool.false_eq_true, List.mem_cons] at hp
      rcases hp with h | h
      · rw [h]; exact Or.inr (Or.inl rfl)
      · exact ih _ p h

/-- With the quota signal unset at the check and the queue accepting the
push, the emission-retry loop finishes its first pass: one push for a
task or locator item, no queue operation at all for any other shape. -/
theorem emitItem_ok (env : Env) (item : Item) (f t : Nat)
    (hr : env.reach t = false) (hp : env.push (t + 1) = PushRes.ok) :
    emitItem env item (f + 1) t =
      ((match item with
        | Item.task id => [(t + 1, Event.pushedOut id)]
        | Item.loc id => [(t + 1, Event.pushedIn id)]
        | Item.other _ => []),
       (match item with
        | Item.other _ => t + 1
        | _ => t + 2),
       EmitOut.done) := by
  cases item <;> simp [emitItem, hr, hp]

/-- With the quota signal never set and an always-accepting queue, the
emission loop over an extraction sequence pushes exactly the task- and
locator-shaped items, in order, and reports `completed` unless the
generator's pending raise is reached. -/
theorem emitSeq_ok (env : Env) (efuel : Nat)
    (hr : ∀ s, env.reach s = false) (hp : ∀ s, env.push s = PushRes.ok)
    (hef : 1 ≤ efuel) :
    ∀ items raises t,
      (emitSeq env efuel items raises t).2.2 =
        (if raises then SeqOut.raised else SeqOut.completed) ∧
      pushedItems (emitSeq env efuel items raises t).1 = emittable items := by
  obtain ⟨ef, rfl⟩ : ∃ ef, efuel = ef + 1 := ⟨efuel - 1, by omega⟩
  intro items
  induction items with
  | nil =>
    intro raises t
    constructor
    · simp [emitSeq]
    · simp [emitSeq, pushedItems, emittable]
  | cons item rest ih =>
    intro raises t
    cases item with
    | task id =>
      have he := emitItem_ok env (Item.task id) ef t (hr t) (hp (t + 1))
      simp only [emitSeq, he, hr, Bool.false_eq_true, if_false]
      constructor
      · simpa using (ih raises (t + 2 + 1)).1
      · have h2 := (ih raises (t + 2 + 1)).2
        simp only [pushedItems, List.filterMap_append] at h2 ⊢
        simp_all [emittable]
    | loc id =>
      have he := emitItem_ok env (Item.loc id) ef t (hr t) (hp (t + 1))
      simp only [emitSeq, he, hr, Bool.false_eq_true, if_false]
      constructor
      · simpa using (ih raises (t + 2 + 1)).1
      · have h2 := (ih raises (t + 2 + 1)).2
        simp only [pushedItems, List.filterMap_append] at h2 ⊢
        simp_all [emittable]
    | other id =>
      have he := emitItem_ok env (Item.other id) ef t (hr t) (hp (t + 1))
      simp only [emitSeq, he, hr, Bool.false_eq_true, if_false]
      constructor
      · simpa using (ih raises (t + 1 + 1)).1
      · have h2 := (ih raises (t + 1 + 1)).2
        simp only [pushedItems, List.filterMap_append] at h2 ⊢
        simp_all [emittable]

/-- The emission loop performs no fetch attempts: backpressure retries are
not counted against the retry budget. -/
theorem attemptCount_emitSeq (env : Env) (efuel : Nat)
    (items : List Item) (raises : Bool) (t : Nat) :
    attemptCount (emitSeq env efuel items raises t).1 = 0 := by
  rw [attemptCount, List.countP_eq_zero]
  intro p hp
  rcases emitSeq_events env efuel items raises t p hp with h | h | ⟨id, _, h⟩ | ⟨id, _, h⟩ <;>
    simp [h, Event.isAttempt]

/-- Counting pushes distributes over cons. -/
theorem pushCount_cons (x : Nat × Event) (tr : Trace) :
    pushCount (x :: tr) = pushCount tr + (if x.2.isPush then 1 else 0) := by
  simp [pushCount, List.countP_cons]

/-- Counting pushes distributes over append. -/
theorem pushCount_append (a b : Trace) :
    pushCount (a ++ b) = pushCount a + pushCount b := by
  simp [pushCount, List.countP_append]

/-- Counting `task_done` calls distributes over cons. -/
theorem taskDoneCount_cons (x : Nat × Event) (tr : Trace) :
    taskDoneCount (x :: tr) = taskDoneCount tr + (if x.2 = Event.taskDone then 1 else 0) := by
  simp [taskDoneCount, List.countP_cons]

/-- Counting `task_done` calls distributes over append. -/
theorem taskDoneCount_append (a b : Trace) :
    taskDoneCount (a ++ b) = taskDoneCount a + taskDoneCount b := by
  simp [taskDoneCount, List.countP_append]

/-- Counting fetch attempts distributes over cons. -/
theorem attemptCount_cons (x : Nat × Event) (tr : Trace) :
    attemptCount (x :: tr) = attemptCount tr + (if x.2.isAttempt then 1 else 0) := by
  simp [attemptCount, List.countP_cons]

/-- Counting fetch attempts distributes over append. -/
theorem attemptCount_append (a b : Trace) :
    attemptCount (a ++ b) = attemptCount a + attemptCount b := by
  simp [attemptCount, List.countP_append]

/-- The fetch/retry loop makes at most `retry` fetch attempts. -/
theorem attemptCount_fetchLoop (env : Env) (efuel : Nat) :
    ∀ r t, attemptCount (fetchLoop env efuel r t).1 ≤ r := by
  intro r
  induction r with
  | zero => intro t; simp [fetchLoop, attemptCount]
  | succ r ih =>
    intro t
    simp only [fetchLoop]
    by_cases hf : env.fetch t
    · simp only [hf, if_true]
      have h0 := attemptCount_emitSeq env efuel (env.parse (t + 1)).1 (env.parse (t + 1)).2 (t + 2)
      rcases ho : (emitSeq env efuel (env.parse (t + 1)).1 (env.parse (t + 1)).2 (t + 2)).2.2
        with _ | _ | _ | _ <;> simp only [ho] <;>
        simp only [attemptCount_cons, attemptCount_append, h0] <;>
        simp [attemptCount, Event.isAttempt]
    · simp only [hf, Bool.false_eq_true, if_false]
      have hih := ih (t + 1)
      rw [attemptCount_cons]
      have : (Event.fetchFail).isAttempt = true := rfl
      simp only [this, if_true]
      omega

/-- If every attempt's fetch fails, the fetch/retry loop runs the budget
down, abandons the locator, and its whole trace is failed attempts. -/
theorem fetchLoop_all_fail (env : Env) (efuel : Nat) :
    ∀ r t, (∀ i, i < r → env.fetch (t + i) = false) →
      (fetchLoop env efuel r t).2 = (t + r, UrlOut.abandoned) ∧
      ∀ p ∈ (fetchLoop env efuel r t).1, p.2 = Event.fetchFail := by
  intro r
  induction r with
  | zero => intro t h; simp [fetchLoop]
  | succ r ih =>
    intro t h
    have h0 : env.fetch t = false := by simpa using h 0 (Nat.succ_pos r)
    have hs : ∀ i, i < r → env.fetch (t + 1 + i) = false := by
      intro i hi
      have := h (i + 1) (by omega)
      have harith : t + (i + 1) = t + 1 + i := by omega
      rwa [harith] at this
    obtain ⟨h1, h2⟩ := ih (t + 1) hs
    simp only [fetchLoop, h0, Bool.false_eq_true, if_false]
    constructor
    · rw [h1]
      have : t + 1 + r = t + (r + 1) := by omega
      rw [this]
    · intro p hp
      rcases List.mem_cons.mp hp with hh | hh
      · rw [hh]
      · exact h2 p hh

/-- If the transport always fails, the worker never emits, never marks a
task done, and never crashes: every locator is abandoned and the loop
moves on. -/
theorem worker_exec_all_fail (env : Env) (hf : ∀ s, env.fetch s = false)
    (maxRetry efuel : Nat) :
    ∀ f t,
      pushCount (worker_exec env maxRetry efuel f t).1 = 0 ∧
      taskDoneCount (worker_exec env maxRetry efuel f t).1 = 0 ∧
      (worker_exec env maxRetry efuel f t).2.2 ≠ ExitReason.raisedExc := by
  intro f
  induction f with
  | zero => intro t; simp [worker_exec, pushCount, taskDoneCount]
  | succ f ih =>
    intro t
    simp only [worker_exec]
    by_cases hr : env.reach t
    · simp [hr, pushCount, taskDoneCount]
    · simp only [hr, Bool.false_eq_true, if_false]
      cases hd : env.dequeue (t + 1) with
      | empty =>
        dsimp only
        by_cases hfe : env.feeder (t + 2)
        · simp [hfe, pushCount, taskDoneCount]
        · simp only [hfe, Bool.false_eq_true, if_false]
          exact ih _
      | err =>
        dsimp only
        obtain ⟨ih1, ih2, ih3⟩ := ih (t + 2)
        refine ⟨?_, ?_, ih3⟩
        · rw [pushCount_cons, ih1]; simp [Event.isPush]
        · rw [taskDoneCount_cons, ih2]; simp
      | item u =>
        dsimp only
        obtain ⟨hk2, hk1⟩ := fetchLoop_all_fail env efuel maxRetry (t + 2)
          (fun i _ => hf (t + 2 + i))
        have ho : (fetchLoop env efuel maxRetry (t + 2)).2.2 = UrlOut.abandoned := by
          rw [hk2]
        have hkp : pushCount (fetchLoop env efuel maxRetry (t + 2)).1 = 0 := by
          rw [pushCount, List.countP_eq_zero]
          intro p hp
          rw [hk1 p hp]
          simp [Event.isPush]
        have hkt : taskDoneCount (fetchLoop env efuel maxRetry (t + 2)).1 = 0 := by
          rw [taskDoneCount, List.countP_eq_zero]
          intro p hp
          rw [hk1 p hp]
          simp
        rw [ho]
        dsimp only
        obtain ⟨ih1, ih2, ih3⟩ := ih (fetchLoop env efuel maxRetry (t + 2)).2.1
        refine ⟨?_, ?_, ih3⟩
        · rw [pushCount_append, pushCount_cons, hkp, ih1]; simp [Event.isPush]
        · rw [taskDoneCount_append, taskDoneCount_cons, hkt, ih2]; simp

/-- A fetch that fails exactly `k` times and then succeeds, within a
budget of `r > k` attempts, still produces all its extracted items
(quota unset, queue accepting, callback clean). -/
theorem fetchLoop_succeeds_after (env : Env) (efuel : Nat)
    (hr : ∀ s, env.reach s = false) (hp : ∀ s, env.push s = PushRes.ok)
    (hnr : ∀ s, (env.parse s).2 = false) (hef : 1 ≤ efuel) :
    ∀ k r t, k < r → (∀ i, i < k → env.fetch (t + i) = false) →
      env.fetch (t + k) = true →
      (fetchLoop env efuel r t).2.2 = UrlOut.success ∧
      pushedItems (fetchLoop env efuel r t).1 = emittable (env.parse (t + k + 1)).1 := by
  intro k
  induction k with
  | zero =>
    intro r t hkr _ hft
    obtain ⟨r', rfl⟩ : ∃ r', r = r' + 1 := ⟨r - 1, by omega⟩
    have hft' : env.fetch t = true := by simpa using hft
    obtain ⟨hseq, hpush⟩ := emitSeq_ok env efuel hr hp hef
      (env.parse (t + 1)).1 false (t + 2)
    simp only [Bool.false_eq_true, if_false] at hseq
    simp only [fetchLoop, hft', if_true, hnr (t + 1), hseq]
    refine ⟨trivial, ?_⟩
    simp only [pushedItems, List.filterMap_append, List.filterMap_cons]
    simp only [pushedItems] at hpush
    simp [hpush]
  | succ k ihk =>
    intro r t hkr hfail hft
    obtain ⟨r', rfl⟩ : ∃ r', r = r' + 1 := ⟨r - 1, by omega⟩
    have h0 : env.fetch t = false := by simpa using hfail 0 (Nat.succ_pos k)
    have hfail' : ∀ i, i < k → env.fetch (t + 1 + i) = false := by
      intro i hi
      have := hfail (i + 1) (by omega)
      have harith : t + (i + 1) = t + 1 + i := by omega
      rwa [harith] at this
    have hft' : env.fetch (t + 1 + k) = true := by
      have harith : t + (k + 1) = t + 1 + k := by omega
      rwa [harith] at hft
    obtain ⟨ih1, ih2⟩ := ihk r' (t + 1) (by omega) hfail' hft'
    simp only [fetchLoop, h0, Bool.false_eq_true, if_false]
    refine ⟨ih1, ?_⟩
    simp only [pushedItems, List.filterMap_cons]
    simp only [pushedItems] at ih2
    have harith : t + 1 + k + 1 = t + (k + 1) + 1 := by omega
    rw [← harith]
    simpa using ih2

/-! ### C3 -/

/-- C3: for every dequeued locator the parser makes at most `max_retry`
fetch attempts; a locator whose fetch fails the whole budget is abandoned
at exactly the exhaustion point with zero emissions; if the transport
always fails the worker keeps going without pushing anything and without
crashing (no dead-letter path exists); and a fetch that fails `k` times
and then succeeds within the budget still emits all its extracted
items. -/
theorem c3_retry_budget (env : Env) (maxRetry efuel : Nat) :
    (∀ r t, attemptCount (fetchLoop env efuel r t).1 ≤ r) ∧
    (∀ r t, (∀ i, i < r → env.fetch (t + i) = false) →
      (fetchLoop env efuel r t).2 = (t + r, UrlOut.abandoned) ∧
      pushCount (fetchLoop env efuel r t).1 = 0) ∧
    ((∀ s, env.fetch s = false) → ∀ f t,
      pushCount (worker_exec env maxRetry efuel f t).1 = 0 ∧
      (worker_exec env maxRetry efuel f t).2.2 ≠ ExitReason.raisedExc) ∧
    ((∀ s, env.reach s = false) → (∀ s, env.push s = PushRes.ok) →
     (∀ s, (env.parse s).2 = false) → 1 ≤ efuel →
     ∀ k r t, k < r → (∀ i, i < k → env.fetch (t + i) = false) →
       env.fetch (t + k) = true →
       (fetchLoop env efuel r t).2.2 = UrlOut.success ∧
       pushedItems (fetchLoop env efuel r t).1 = emittable (env.parse (t + k + 1)).1) := by
  refine ⟨attemptCount_fetchLoop env efuel, ?_, ?_, ?_⟩
  · intro r t h
    obtain ⟨h1, h2⟩ := fetchLoop_all_fail env efuel r t h
    refine ⟨h1, ?_⟩
    rw [pushCount, List.countP_eq_zero]
    intro p hp
    rw [h2 p hp]
    simp [Event.isPush]
  · intro hfail f t
    obtain ⟨h1, _, h3⟩ := worker_exec_all_fail env hfail maxRetry efuel f t
    exact ⟨h1, h3⟩
  · intro h1 h2 h3 h4
    exact fetchLoop_succeeds_after env efuel h1 h2 h3 h4

/-- A transport that fails twice and then succeeds, with accepting
queues, no quota, and a clean extraction callback. -/
def cenvRetry : Env :=
  ⟨fun _ => false, fun _ => false, fun _ => DequeueRes.item 9,
   fun t => 2 ≤ t, fun _ => ([Item.task 4, Item.other 6], false), fun _ => PushRes.ok⟩

/-- Witness for `c3_retry_budget`: with `max_retry = 3` and a transport
failing at attempts one and two and succeeding at the third, the locator
still emits its items. -/
theorem c3_retry_budget_witness :
    (∀ i, i < 2 → cenvRetry.fetch (0 + i) = false) ∧
    cenvRetry.fetch (0 + 2) = true ∧
    (fetchLoop cenvRetry 1 3 0).2.2 = UrlOut.success ∧
    pushedItems (fetchLoop cenvRetry 1 3 0).1 = emittable (cenvRetry.parse (0 + 2 + 1)).1 ∧
    attemptCount (fetchLoop cenvRetry 1 3 0).1 ≤ 3 := by
  have h := c3_retry_budget cenvRetry 3 1
  have h4 := h.2.2.2 (fun _ => rfl) (fun _ => rfl) (fun _ => rfl) (le_refl 1) 2 3 0
    (by omega) (by decide) (by decide)
  exact ⟨by decide, by decide, h4.1, h4.2, h.1 3 0⟩

/-! ### C4 -/

/-- If the emission-retry loop for a task item finishes with `done`, the
item was actually pushed to the output queue. -/
theorem emitItem_done_push (env : Env) (id : Nat) :
    ∀ f t, (emitItem env (Item.task id) f t).2.2 = EmitOut.done →
      ∃ s, (s, Event.pushedOut id) ∈ (emitItem env (Item.task id) f t).1 := by
  intro f
  induction f with
  | zero => intro t h; simp [emitItem] at h
  | succ f ih =>
    intro t h
    by_cases hr : env.reach t
    · simp [emitItem, hr] at h
    · simp only [emitItem, hr, Bool.false_eq_true, if_false] at h ⊢
      cases hpk : env.push (t + 1) with
      | ok => exact ⟨t + 1, by simp [hpk]⟩
      | full =>
        rw [hpk] at h
        dsimp only at h ⊢
        obtain ⟨s, hs⟩ := ih (t + 2) h
        exact ⟨s, List.mem_cons_of_mem _ hs⟩
      | err =>
        rw [hpk] at h
        dsimp only at h ⊢
        obtain ⟨s, hs⟩ := ih (t + 2) h
        exact ⟨s, List.mem_cons_of_mem _ hs⟩

/-- If the emission-retry loop for a locator item finishes with `done`,
the item was actually pushed back onto the worker's own input queue. -/
theorem emitItem_done_push_loc (env : Env) (id : Nat) :
    ∀ f t, (emitItem env (Item.loc id) f t).2.2 = EmitOut.done →
      ∃ s, (s, Event.pushedIn id) ∈ (emitItem env (Item.loc id) f t).1 := by
  intro f
  induction f with
  | zero => intro t h; simp [emitItem] at h
  | succ f ih =>
    intro t h
    by_cases hr : env.reach t
    · simp [emitItem, hr] at h
    · simp only [emitItem, hr, Bool.false_eq_true, if_false] at h ⊢
      cases hpk : env.push (t + 1) with
      | ok => exact ⟨t + 1, by simp [hpk]⟩
      | full =>
        rw [hpk] at h
        dsimp only at h ⊢
        obtain ⟨s, hs⟩ := ih (t + 2) h
        exact ⟨s, List.mem_cons_of_mem _ hs⟩
      | err =>
        rw [hpk] at h
        dsimp only at h ⊢
        obtain ⟨s, hs⟩ := ih (t + 2) h
        exact ⟨s, List.mem_cons_of_mem _ hs⟩

/-- The emission-retry loop gives up only on observing the quota signal
set. -/
theorem emitItem_quota_reach (env : Env) (item : Item) :
    ∀ f t, (emitItem env item f t).2.2 = EmitOut.quota → ∃ s, env.reach s = true := by
  intro f
  induction f with
  | zero => intro t h; simp [emitItem] at h
  | succ f ih =>
    intro t h
    by_cases hr : env.reach t
    · exact ⟨t, hr⟩
    · simp only [emitItem, hr, Bool.false_eq_true, if_false] at h
      cases item with
      | task id =>
        cases hpk : env.push (t + 1) <;> rw [hpk] at h <;> dsimp only at h
        · simp at h
        · exact ih (t + 2) h
        · exact ih (t + 2) h
      | loc id =>
        cases hpk : env.push (t + 1) <;> rw [hpk] at h <;> dsimp only at h
        · simp at h
        · exact ih (t + 2) h
        · exact ih (t + 2) h
      | other id => simp at h

/-- Unless the emission-retry loop finishes with `done`, it pushes
nothing: an item is never dropped by being half-pushed. -/
theorem emitItem_not_done_no_push (env : Env) (item : Item) :
    ∀ f t, (emitItem env item f t).2.2 ≠ EmitOut.done →
      pushCount (emitItem env item f t).1 = 0 := by
  intro f
  induction f with
  | zero => intro t h; simp [emitItem, pushCount]
  | succ f ih =>
    intro t h
    by_cases hr : env.reach t
    · simp [emitItem, hr, pushCount]
    · simp only [emitItem, hr, Bool.false_eq_true, if_false] at h ⊢
      cases item with
      | task id =>
        cases hpk : env.push (t + 1) <;> rw [hpk] at h <;> dsimp only at h ⊢
        · simp at h
        · rw [pushCount_cons, ih (t + 2) h]; simp [Event.isPush]
        · rw [pushCount_cons, ih (t + 2) h]; simp [Event.isPush]
      | loc id =>
        cases hpk : env.push (t + 1) <;> rw [hpk] at h <;> dsimp only at h ⊢
        · simp at h
        · rw [pushCount_cons, ih (t + 2) h]; simp [Event.isPush]
        · rw [pushCount_cons, ih (t + 2) h]; simp [Event.isPush]
      | other id => simp [pushCount]

/-- The emission-retry loop performs no fetch attempts: its retries are
invisible to the `max_retry` budget. -/
theorem attemptCount_emitItem (env : Env) (item : Item) (f t : Nat) :
    attemptCount (emitItem env item f t).1 = 0 := by
  rw [attemptCount, List.countP_eq_zero]
  intro p hp
  rcases emitItem_events env item f t p hp with h | h | ⟨id, _, h⟩ | ⟨id, _, h⟩ <;>
    simp [h, Event.isAttempt]

/-- If the quota signal stays unset and the queue accepts pushes from
some time `T` on (the stalled consumer resumes), the emission-retry loop
completes once it is given enough fuel to reach `T`. -/
theorem emitItem_completes (env : Env) (item : Item)
    (hr : ∀ s, env.reach s = false) (T : Nat)
    (hp : ∀ s, T ≤ s → env.push s = PushRes.ok) :
    ∀ f t, 1 ≤ f → T ≤ t + f → (emitItem env item f t).2.2 = EmitOut.done := by
  intro f
  induction f with
  | zero => intro t h; omega
  | succ f ih =>
    intro t _ hT
    simp only [emitItem, hr t, Bool.false_eq_true, if_false]
    cases item with
    | task id =>
      by_cases hcase : T ≤ t + 1
      · rw [hp (t + 1) hcase]
      · cases hpk : env.push (t + 1)
        · simp
        · exact ih (t + 2) (by omega) (by omega)
        · exact ih (t + 2) (by omega) (by omega)
    | loc id =>
      by_cases hcase : T ≤ t + 1
      · rw [hp (t + 1) hcase]
      · cases hpk : env.push (t + 1)
        · simp
        · exact ih (t + 2) (by omega) (by omega)
        · exact ih (t + 2) (by omega) (by omega)
    | other id => simp

/-- C4: queue-full backpressure never drops an item.  The emission-retry
loop for a task stops only by actually pushing the item (`done` implies a
push event) or by observing the quota signal; while it retries it pushes
nothing and consumes no fetch attempts (so the retries are not counted
against `max_retry`); and once the queue accepts pushes again the loop
completes, given fuel to reach that time. -/
theorem c4_backpressure_never_drops (env : Env) (id : Nat) :
    (∀ f t, (emitItem env (Item.task id) f t).2.2 = EmitOut.done →
      ∃ s, (s, Event.pushedOut id) ∈ (emitItem env (Item.task id) f t).1) ∧
    (∀ f t, (emitItem env (Item.loc id) f t).2.2 = EmitOut.done →
      ∃ s, (s, Event.pushedIn id) ∈ (emitItem env (Item.loc id) f t).1) ∧
    (∀ f t, (emitItem env (Item.task id) f t).2.2 = EmitOut.quota →
      ∃ s, env.reach s = true) ∧
    (∀ f t, (emitItem env (Item.task id) f t).2.2 ≠ EmitOut.done →
      pushCount (emitItem env (Item.task id) f t).1 = 0) ∧
    (∀ f t, attemptCount (emitItem env (Item.task id) f t).1 = 0) ∧
    ((∀ s, env.reach s = false) → ∀ T, (∀ s, T ≤ s → env.push s = PushRes.ok) →
      ∀ f t, 1 ≤ f → T ≤ t + f →
        (emitItem env (Item.task id) f t).2.2 = EmitOut.done) :=
  ⟨emitItem_done_push env id, emitItem_done_push_loc env id,
   emitItem_quota_reach env (Item.task id), emitItem_not_done_no_push env (Item.task id),
   attemptCount_emitItem env (Item.task id),
   fun hr T hp => emitItem_completes env (Item.task id) hr T hp⟩

/-- An environment whose output queue is full until time 5 and accepts
afterwards, with the quota signal never set. -/
def cenvBack : Env :=
  ⟨fun _ => false, fun _ => false, fun _ => DequeueRes.empty, fun _ => true,
   fun _ => ([], false), fun t => if t < 5 then PushRes.full else PushRes.ok⟩

/-- Witness for `c4_backpressure_never_drops`: a queue full until time 5
still eventually receives the pushed item. -/
theorem c4_backpressure_never_drops_witness :
    (∀ s, cenvBack.reach s = false) ∧
    (∀ s, 5 ≤ s → cenvBack.push s = PushRes.ok) ∧
    (emitItem cenvBack (Item.task 2) 6 0).2.2 = EmitOut.done := by
  have hr : ∀ s, cenvBack.reach s = false := fun _ => rfl
  have hp : ∀ s, 5 ≤ s → cenvBack.push s = PushRes.ok := by
    intro s hs
    show (if s < 5 then PushRes.full else PushRes.ok) = PushRes.ok
    rw [if_neg (by omega)]
  exact ⟨hr, hp,
    (c4_backpressure_never_drops cenvBack 2).2.2.2.2.2 hr 5 hp 6 0 (by omega) (by omega)⟩

/-! ### C8 and C9 -/

/-- C8: emitted items are routed by shape — a structured task (dict) is
only ever pushed to the connected output queue, a raw locator (str) is
only ever pushed back onto the pool's own input queue, and under an
accepting queue with the quota unset the emission loop pushes exactly
the task- and locator-shaped items of the extraction sequence, each to
its queue. -/
theorem c8_item_routing (env : Env) (efuel id : Nat) :
    (∀ f t, ∀ p ∈ (emitItem env (Item.task id) f t).1, p.2.isPush = true →
      p.2 = Event.pushedOut id) ∧
    (∀ f t, ∀ p ∈ (emitItem env (Item.loc id) f t).1, p.2.isPush = true →
      p.2 = Event.pushedIn id) ∧
    ((∀ s, env.reach s = false) → (∀ s, env.push s = PushRes.ok) → 1 ≤ efuel →
      ∀ items raises t,
        pushedItems (emitSeq env efuel items raises t).1 = emittable items) := by
  refine ⟨?_, ?_, ?_⟩
  · intro f t p hp hpush
    rcases emitItem_events env (Item.task id) f t p hp with h | h | ⟨i, hi, he⟩ | ⟨i, hi, he⟩
    · rw [h] at hpush; simp [Event.isPush] at hpush
    · rw [h] at hpush; simp [Event.isPush] at hpush
    · obtain rfl : id = i := by injection hi
      exact he
    · simp at hi
  · intro f t p hp hpush
    rcases emitItem_events env (Item.loc id) f t p hp with h | h | ⟨i, hi, he⟩ | ⟨i, hi, he⟩
    · rw [h] at hpush; simp [Event.isPush] at hpush
    · rw [h] at hpush; simp [Event.isPush] at hpush
    · simp at hi
    · obtain rfl : id = i := by injection hi
      exact he
  · intro h1 h2 h3 items raises t
    exact (emitSeq_ok env efuel h1 h2 h3 items raises t).2

/-- An environment with quota unset, accepting queues, and a clean
three-shape extraction result. -/
def cenvGood : Env :=
  ⟨fun _ => false, fun _ => false, fun _ => DequeueRes.empty, fun _ => true,
   fun _ => ([Item.task 5, Item.loc 8, Item.other 3], false), fun _ => PushRes.ok⟩

/-- Witness for `c8_item_routing` at a concrete environment: a task, a
locator and an unrecognised item are routed to the output queue, the own
input queue, and nowhere, respectively. -/
theorem c8_item_routing_witness :
    (∀ s, cenvGood.reach s = false) ∧ (∀ s, cenvGood.push s = PushRes.ok) ∧
    pushedItems (emitSeq cenvGood 1 [Item.task 5, Item.loc 8, Item.other 3] false 0).1 =
      emittable [Item.task 5, Item.loc 8, Item.other 3] :=
  ⟨fun _ => rfl, fun _ => rfl,
   (c8_item_routing cenvGood 1 5).2.2 (fun _ => rfl) (fun _ => rfl) (le_refl 1)
     [Item.task 5, Item.loc 8, Item.other 3] false 0⟩

/-- C9: an item that is neither a dict nor a str is silently discarded:
with the quota signal unset the emission loop's first pass performs no
queue operation, raises nothing and logs nothing (its trace is empty),
finishes with the success `break`, and the `for` loop moves on to the
next yielded item. -/
theorem c9_other_shape_discarded (env : Env) (efuel id f t : Nat)
    (rest : List Item) (raises : Bool)
    (h1 : env.reach t = false) (h2 : env.reach (t + 1) = false) (hef : 1 ≤ efuel) :
    emitItem env (Item.other id) (f + 1) t = ([], t + 1, EmitOut.done) ∧
    emitSeq env efuel (Item.other id :: rest) raises t =
      emitSeq env efuel rest raises (t + 1 + 1) := by
  obtain ⟨ef, rfl⟩ : ∃ ef, efuel = ef + 1 := ⟨efuel - 1, by omega⟩
  refine ⟨by simp [emitItem, h1], ?_⟩
  simp only [emitSeq, emitItem, h1, Bool.false_eq_true, if_false]
  simp [h2]

/-- Witness for `c9_other_shape_discarded` at a concrete environment. -/
theorem c9_other_shape_discarded_witness :
    cenvGood.reach 0 = false ∧ cenvGood.reach 1 = false ∧
    (emitItem cenvGood (Item.other 3) 1 0 = ([], 1, EmitOut.done) ∧
     emitSeq cenvGood 1 (Item.other 3 :: [Item.task 5]) false 0 =
       emitSeq cenvGood 1 [Item.task 5] false 2) :=
  ⟨rfl, rfl, c9_other_shape_discarded cenvGood 1 3 0 0 [Item.task 5] false rfl rfl (le_refl 1)⟩

/-! ### C10 -/

/-- The emission loop over an extraction sequence performs no `task_done`
call itself. -/
theorem taskDoneCount_emitSeq (env : Env) (efuel : Nat)
    (items : List Item) (raises : Bool) (t : Nat) :
    taskDoneCount (emitSeq env efuel items raises t).1 = 0 := by
  rw [taskDoneCount, List.countP_eq_zero]
  intro p hp
  rcases emitSeq_events env efuel items raises t p hp with h | h | ⟨id, _, h⟩ | ⟨id, _, h⟩ <;>
    simp [h]

/-- With an always-accepting queue, one unit of emission fuel suffices:
the per-item emission loop cannot run out of fuel. -/
theorem emitItem_no_fuelOut (env : Env) (hp : ∀ s, env.push s = PushRes.ok)
    (item : Item) (f t : Nat) (hf : 1 ≤ f) :
    (emitItem env item f t).2.2 ≠ EmitOut.fuelOut := by
  obtain ⟨f', rfl⟩ : ∃ f', f = f' + 1 := ⟨f - 1, by omega⟩
  by_cases hr : env.reach t
  · simp [emitItem, hr]
  · cases item <;> simp [emitItem, hr, hp (t + 1)]

/-- With an always-accepting queue, the emission loop over a sequence
cannot run out of fuel. -/
theorem emitSeq_no_fuelOut (env : Env) (efuel : Nat)
    (hp : ∀ s, env.push s = PushRes.ok) (hef : 1 ≤ efuel) :
    ∀ items raises t, (emitSeq env efuel items raises t).2.2 ≠ SeqOut.fuelOut := by
  intro items
  induction items with
  | nil => intro raises t; simp [emitSeq]; split <;> simp
  | cons item rest ih =>
    intro raises t
    simp only [emitSeq]
    rcases ho : (emitItem env item efuel t).2.2 with _ | _ | _
    · by_cases hr : env.reach (emitItem env item efuel t).2.1 <;> simp [hr]
      exact ih _ _
    · by_cases hr : env.reach (emitItem env item efuel t).2.1 <;> simp [hr]
      exact ih _ _
    · exact absurd ho (emitItem_no_fuelOut env hp item efuel t hef)

/-- `task_done` accounting for the fetch/retry loop: the count is one
exactly on the success outcome and zero otherwise. -/
theorem fetchLoop_taskDone (env : Env) (efuel : Nat) :
    ∀ r t, taskDoneCount (fetchLoop env efuel r t).1 =
      (if (fetchLoop env efuel r t).2.2 = UrlOut.success then 1 else 0) := by
  intro r
  induction r with
  | zero => intro t; simp [fetchLoop, taskDoneCount]
  | succ r ih =>
    intro t
    simp only [fetchLoop]
    by_cases hf : env.fetch t
    · simp only [hf, if_true]
      have h0 := taskDoneCount_emitSeq env efuel (env.parse (t + 1)).1 (env.parse (t + 1)).2 (t + 2)
      rcases ho : (emitSeq env efuel (env.parse (t + 1)).1 (env.parse (t + 1)).2 (t + 2)).2.2
        with _ | _ | _ | _ <;> simp only [ho]
      · rw [taskDoneCount_append, taskDoneCount_cons, h0]
        simp [taskDoneCount]
      · rw [taskDoneCount_append, taskDoneCount_cons, h0]
        simp [taskDoneCount]
      · rw [taskDoneCount_cons, h0]
        simp
      · rw [taskDoneCount_cons, h0]
        simp
    · simp only [hf, Bool.false_eq_true, if_false]
      rw [taskDoneCount_cons, ih (t + 1)]
      simp
  
/-- A `task_done` call in the fetch/retry loop's trace implies a
successful fetch in that trace. -/
theorem fetchLoop_taskDone_fetchOk (env : Env) (efuel : Nat) :
    ∀ r t, 1 ≤ taskDoneCount (fetchLoop env efuel r t).1 →
      ∃ s, (s, Event.fetchOk) ∈ (fetchLoop env efuel r t).1 := by
  intro r
  induction r with
  | zero => intro t h; simp [fetchLoop, taskDoneCount] at h
  | succ r ih =>
    intro t h
    simp only [fetchLoop] at h ⊢
    by_cases hf : env.fetch t
    · simp only [hf, if_true] at h ⊢
      rcases ho : (emitSeq env efuel (env.parse (t + 1)).1 (env.parse (t + 1)).2 (t + 2)).2.2
        with _ | _ | _ | _ <;> exact ⟨t, by simp⟩
    · simp only [hf, Bool.false_eq_true, if_false] at h ⊢
      rw [taskDoneCount_cons] at h
      simp at h
      obtain ⟨s, hs⟩ := ih (t + 1) (by omega)
      exact ⟨s, List.mem_cons_of_mem _ hs⟩

/-- With a clean callback, an accepting queue and emission fuel, a
successful fetch in the trace forces the success outcome (and hence the
`task_done` call). -/
theorem fetchLoop_fetchOk_success (env : Env) (efuel : Nat)
    (hnr : ∀ s, (env.parse s).2 = false) (hp : ∀ s, env.push s = PushRes.ok)
    (hef : 1 ≤ efuel) :
    ∀ r t, (∃ s, (s, Event.fetchOk) ∈ (fetchLoop env efuel r t).1) →
      (fetchLoop env efuel r t).2.2 = UrlOut.success := by
  intro r
  induction r with
  | zero => intro t h; simp [fetchLoop] at h
  | succ r ih =>
    intro t h
    simp only [fetchLoop] at h ⊢
    by_cases hf : env.fetch t
    · simp only [hf, if_true] at h ⊢
      rcases ho : (emitSeq env efuel (env.parse (t + 1)).1 (env.parse (t + 1)).2 (t + 2)).2.2
        with _ | _ | _ | _
      · rfl
      · rfl
      · rw [hnr (t + 1)] at ho
        exact absurd ho (emitSeq_ne_raised env efuel _ _)
      · exact absurd ho (emitSeq_no_fuelOut env efuel hp hef _ _ _)
    · simp only [hf, Bool.false_eq_true, if_false] at h ⊢
      obtain ⟨s, hs⟩ := h
      rcases List.mem_cons.mp hs with hh | hh
      · exact absurd (congrArg Prod.snd hh) (by simp)
      · exact ih (t + 1) ⟨s, hh⟩

/-- C10 counterexample: a raising extraction callback yields a dequeued
locator whose fetch succeeded within the budget but for which `task_done`
is never called, refuting the claim that `task_done` is called exactly
once for every fetch-successful locator. -/
theorem c10_counterexample :
    (0, Event.fetchOk) ∈ (fetchLoop cenvRaise 1 3 0).1 ∧
    taskDoneCount (fetchLoop cenvRaise 1 3 0).1 = 0 ∧
    (fetchLoop cenvRaise 1 3 0).2.2 = UrlOut.raised := by
  decide

/-- C10 amended: `task_done` is called exactly once per dequeued locator
whose processing reaches the success outcome, and never otherwise; any
`task_done` implies a successful fetch; conversely a successful fetch
forces the success outcome provided the extraction callback does not
raise (and the queue accepts); and a quota-skipped iteration performs no
event at all, hence no `task_done`. -/
theorem c10_task_done_accounting (env : Env) (efuel : Nat) :
    (∀ r t, ((fetchLoop env efuel r t).2.2 = UrlOut.success ↔
      taskDoneCount (fetchLoop env efuel r t).1 = 1)) ∧
    (∀ r t, 1 ≤ taskDoneCount (fetchLoop env efuel r t).1 →
      ∃ s, (s, Event.fetchOk) ∈ (fetchLoop env efuel r t).1) ∧
    ((∀ s, (env.parse s).2 = false) → (∀ s, env.push s = PushRes.ok) → 1 ≤ efuel →
      ∀ r t, (∃ s, (s, Event.fetchOk) ∈ (fetchLoop env efuel r t).1) →
        (fetchLoop env efuel r t).2.2 = UrlOut.success) ∧
    (∀ maxRetry f t, env.reach t = true →
      worker_exec env maxRetry efuel (f + 1) t = ([], t + 1, ExitReason.quotaExit)) := by
  refine ⟨?_, fetchLoop_taskDone_fetchOk env efuel, fetchLoop_fetchOk_success env efuel, ?_⟩
  · intro r t
    rw [fetchLoop_taskDone env efuel r t]
    by_cases ho : (fetchLoop env efuel r t).2.2 = UrlOut.success <;> simp [ho]
  · intro maxRetry f t hq
    simp [worker_exec, hq]

/-- Witness for `c10_task_done_accounting` at a concrete environment:
one successful fetch, one `task_done`. -/
theorem c10_task_done_accounting_witness :
    (∀ s, (cenvGood.parse s).2 = false) ∧ (∀ s, cenvGood.push s = PushRes.ok) ∧
    (0, Event.fetchOk) ∈ (fetchLoop cenvGood 1 3 0).1 ∧
    (fetchLoop cenvGood 1 3 0).2.2 = UrlOut.success ∧
    taskDoneCount (fetchLoop cenvGood 1 3 0).1 = 1 := by
  refine ⟨fun _ => rfl, fun _ => rfl, by decide, ?_⟩
  have h := c10_task_done_accounting cenvGood 1
  have hs := h.2.2.1 (fun _ => rfl) (fun _ => rfl) (le_refl 1) 3 0 ⟨0, by decide⟩
  exact ⟨hs, (h.1 3 0).mp hs⟩

/-! ### C5 -/

/-- A source-exhaustion exit of the worker loop can only arise from a
dequeue that timed out empty while the `feeder_exited` signal was
observed set right after. -/
theorem worker_exec_sourceExit (env : Env) (maxRetry efuel : Nat) :
    ∀ f t, (worker_exec env maxRetry efuel f t).2.2 = ExitReason.sourceExit →
      ∃ s, env.dequeue s = DequeueRes.empty ∧ env.feeder (s + 1) = true := by
  intro f
  induction f with
  | zero => intro t h; simp [worker_exec] at h
  | succ f ih =>
    intro t h
    simp only [worker_exec] at h
    by_cases hr : env.reach t
    · simp [hr] at h
    · simp only [hr, Bool.false_eq_true, if_false] at h
      cases hd : env.dequeue (t + 1) with
      | empty =>
        rw [hd] at h
        by_cases hfe : env.feeder (t + 2)
        · exact ⟨t + 1, hd, hfe⟩
        · simp only [hfe, Bool.false_eq_true, if_false] at h
          exact ih _ h
      | err =>
        rw [hd] at h
        exact ih _ h
      | item u =>
        rw [hd] at h
        rcases ho : (fetchLoop env efuel maxRetry (t + 2)).2.2 with _ | _ | _ | _ <;>
          rw [ho] at h <;> simp at h
        · exact ih _ h
        · exact ih _ h

/-- Locator ids the `pushedIn` events of the fetch loop would re-enqueue:
none, when the extraction callback never yields raw locators. -/
theorem pushedInIds_fetchLoop_nil (env : Env) (efuel : Nat)
    (hnl : ∀ s id, Item.loc id ∉ (env.parse s).1) (r t : Nat) :
    pushedInIds (fetchLoop env efuel r t).1 = [] := by
  rw [pushedInIds, List.filterMap_eq_nil]
  intro p hp
  rcases fetchLoop_events env efuel r t p hp with
    h | h | h | h | h | ⟨id, s, _, h⟩ | ⟨id, s, hmem, h⟩ <;> rw [h]
  exact absurd hmem (hnl s id)

/-- Extracting dequeued locator ids distributes over append. -/
theorem dequeuedIds_append (a b : Trace) :
    dequeuedIds (a ++ b) = dequeuedIds a ++ dequeuedIds b :=
  List.filterMap_append a b _

/-- A `dequeued` event at the head contributes its locator id. -/
theorem dequeuedIds_cons_dequeued (s u : Nat) (tr : Trace) :
    dequeuedIds ((s, Event.dequeued u) :: tr) = u :: dequeuedIds tr := by
  simp [dequeuedIds, List.filterMap_cons]

/-- The fetch loop\'s trace contains no `dequeued` events. -/
theorem dequeuedIds_fetchLoop_nil (env : Env) (efuel : Nat) (r t : Nat) :
    dequeuedIds (fetchLoop env efuel r t).1 = [] := by
  rw [dequeuedIds, List.filterMap_eq_nil]
  intro p hp
  rcases fetchLoop_events env efuel r t p hp with
    h | h | h | h | h | ⟨id, s, _, h⟩ | ⟨id, s, _, h⟩ <;> rw [h]

/-- With a clean callback, an accepting queue and emission fuel, the
fetch loop always finishes a locator with success or abandonment. -/
theorem fetchLoop_completes (env : Env) (efuel : Nat)
    (hnr : ∀ s, (env.parse s).2 = false) (hp : ∀ s, env.push s = PushRes.ok)
    (hef : 1 ≤ efuel) :
    ∀ r t, (fetchLoop env efuel r t).2.2 = UrlOut.success ∨
      (fetchLoop env efuel r t).2.2 = UrlOut.abandoned := by
  intro r
  induction r with
  | zero => intro t; simp [fetchLoop]
  | succ r ih =>
    intro t
    simp only [fetchLoop]
    by_cases hf : env.fetch t
    · simp only [hf, if_true]
      rcases ho : (emitSeq env efuel (env.parse (t + 1)).1 (env.parse (t + 1)).2 (t + 2)).2.2
        with _ | _ | _ | _
      · left; rfl
      · left; rfl
      · rw [hnr (t + 1)] at ho
        exact absurd ho (emitSeq_ne_raised env efuel _ _)
      · exact absurd ho (emitSeq_no_fuelOut env efuel hp hef _ _ _)
    · simp only [hf, Bool.false_eq_true, if_false]
      exact ih _

/-- The drain property of the explicit-queue worker: once the feeder has
exited, a worker with the quota unset dequeues and processes every
locator left in its input queue, in order, and only then exits by source
exhaustion (callback clean and yielding no raw locators, queue
accepting). -/
theorem worker_execQ_drains (env : Env) (maxRetry efuel : Nat)
    (hr : ∀ s, env.reach s = false) (hfe : ∀ s, env.feeder s = true)
    (hp : ∀ s, env.push s = PushRes.ok) (hnr : ∀ s, (env.parse s).2 = false)
    (hnl : ∀ s id, Item.loc id ∉ (env.parse s).1) (hef : 1 ≤ efuel) :
    ∀ q f t, q.length + 1 ≤ f →
      (worker_execQ env maxRetry efuel f t q).2.2.2 = ExitReason.sourceExit ∧
      dequeuedIds (worker_execQ env maxRetry efuel f t q).1 = q := by
  intro q
  induction q with
  | nil =>
    intro f t hf
    obtain ⟨f', rfl⟩ : ∃ f', f = f' + 1 := ⟨f - 1, by omega⟩
    simp [worker_execQ, hr t, hfe (t + 2), dequeuedIds]
  | cons u rest ih =>
    intro f t hf
    obtain ⟨f', rfl⟩ : ∃ f', f = f' + 1 := ⟨f - 1, by omega⟩
    simp only [worker_execQ, hr t, Bool.false_eq_true, if_false]
    have hpin := pushedInIds_fetchLoop_nil env efuel hnl maxRetry (t + 2)
    have hdeq := dequeuedIds_fetchLoop_nil env efuel maxRetry (t + 2)
    have hlen : rest.length + 1 ≤ f' := by
      simp only [List.length_cons] at hf
      omega
    rcases fetchLoop_completes env efuel hnr hp hef maxRetry (t + 2) with ho | ho <;>
      simp only [ho] <;>
      rw [hpin, List.append_nil] <;>
      obtain ⟨ih1, ih2⟩ := ih f' (fetchLoop env efuel maxRetry (t + 2)).2.1 hlen <;>
      refine ⟨ih1, ?_⟩ <;>
      rw [dequeuedIds_append, dequeuedIds_cons_dequeued, hdeq, ih2] <;>
      simp

/-- C5: the worker terminates by source exhaustion exactly when a dequeue
times out while `feeder_exited` is set: any source-exhaustion exit
exhibits such a moment; while `feeder_exited` stays unset the worker
never exits that way (it keeps waiting); and every locator still in the
input queue when the feeder has exited is dequeued and processed, in
order, before the worker exits. -/
theorem c5_source_exhaustion (env : Env) (maxRetry efuel : Nat) :
    (∀ f t, (worker_exec env maxRetry efuel f t).2.2 = ExitReason.sourceExit →
      ∃ s, env.dequeue s = DequeueRes.empty ∧ env.feeder (s + 1) = true) ∧
    (∀ f t, env.reach t = false → env.dequeue (t + 1) = DequeueRes.empty →
      env.feeder (t + 2) = false →
      worker_exec env maxRetry efuel (f + 1) t = worker_exec env maxRetry efuel f (t + 3)) ∧
    ((∀ s, env.feeder s = false) → ∀ f t,
      (worker_exec env maxRetry efuel f t).2.2 ≠ ExitReason.sourceExit) ∧
    ((∀ s, env.reach s = false) → (∀ s, env.feeder s = true) →
     (∀ s, env.push s = PushRes.ok) → (∀ s, (env.parse s).2 = false) →
     (∀ s id, Item.loc id ∉ (env.parse s).1) → 1 ≤ efuel →
     ∀ q f t, q.length + 1 ≤ f →
       (worker_execQ env maxRetry efuel f t q).2.2.2 = ExitReason.sourceExit ∧
       dequeuedIds (worker_execQ env maxRetry efuel f t q).1 = q) := by
  refine ⟨worker_exec_sourceExit env maxRetry efuel, ?_, ?_, ?_⟩
  · intro f t h1 h2 h3
    simp [worker_exec, h1, h2, h3]
  · intro hfe f t hcontra
    obtain ⟨s, _, hs2⟩ := worker_exec_sourceExit env maxRetry efuel f t hcontra
    rw [hfe (s + 1)] at hs2
    exact absurd hs2 (by simp)
  · intro h1 h2 h3 h4 h5 h6
    exact worker_execQ_drains env maxRetry efuel h1 h2 h3 h4 h5 h6

/-- An environment after feeder exit: the quota never fires, the feeder
signal is set, the transport succeeds, the callback yields one task. -/
def cenvDrain : Env :=
  ⟨fun _ => false, fun _ => true, fun _ => DequeueRes.empty, fun _ => true,
   fun _ => ([Item.task 1], false), fun _ => PushRes.ok⟩

/-- Witness for `c5_source_exhaustion`: a two-locator queue is fully
drained before the source-exhaustion exit. -/
theorem c5_source_exhaustion_witness :
    (∀ s, cenvDrain.reach s = false) ∧ (∀ s, cenvDrain.feeder s = true) ∧
    (∀ s id, Item.loc id ∉ (cenvDrain.parse s).1) ∧
    (worker_execQ cenvDrain 3 1 3 0 [4, 9]).2.2.2 = ExitReason.sourceExit ∧
    dequeuedIds (worker_execQ cenvDrain 3 1 3 0 [4, 9]).1 = [4, 9] := by
  have hnl : ∀ s id, Item.loc id ∉ (cenvDrain.parse s).1 := by
    intro s id hmem
    simp [cenvDrain] at hmem
  have h := (c5_source_exhaustion cenvDrain 3 1).2.2.2 (fun _ => rfl) (fun _ => rfl)
    (fun _ => rfl) (fun _ => rfl) hnl (le_refl 1) [4, 9] 3 0 (by simp)
  exact ⟨fun _ => rfl, fun _ => rfl, hnl, h.1, h.2⟩

/-! ### C6 -/

/-- One poll iteration sets `feeder_exited` exactly when the feeder pool
has no live worker (and keeps it if already set). -/
theorem pollSig_feeder (w : CrawlEnv) (i : Nat) (s : Sig) :
    (pollSig w i s).feederExited = (s.feederExited || !w.feederAlive i) := by
  unfold pollSig
  by_cases h1 : w.feederAlive i <;> by_cases h2 : w.parserAlive i <;> simp [h1, h2]

/-- One poll iteration sets `parser_exited` exactly when the parser pool
has no live worker (and keeps it if already set). -/
theorem pollSig_parserFlag (w : CrawlEnv) (i : Nat) (s : Sig) :
    (pollSig w i s).parserExited = (s.parserExited || !w.parserAlive i) := by
  unfold pollSig
  by_cases h1 : w.feederAlive i <;> by_cases h2 : w.parserAlive i <;> simp [h1, h2]

/-- Specification of the liveness poll loop: when it exits, it does so at
the first polled index where the downloader pool has no live worker, and
the final signal state records exactly whether the feeder (resp. parser)
pool was seen dead at some polled index; when the fuel runs out instead,
the downloader was alive at every polled index. -/
theorem pollLoop_spec (w : CrawlEnv) :
    ∀ f i s,
      ((pollLoop w f i s).2.2 = true →
        ∃ j, i ≤ j ∧ j < i + f ∧ w.downloaderAlive j = false ∧
          (∀ m, i ≤ m → m < j → w.downloaderAlive m = true) ∧
          ((pollLoop w f i s).2.1.feederExited = true ↔
            (s.feederExited = true ∨ ∃ m, i ≤ m ∧ m ≤ j ∧ w.feederAlive m = false)) ∧
          ((pollLoop w f i s).2.1.parserExited = true ↔
            (s.parserExited = true ∨ ∃ m, i ≤ m ∧ m ≤ j ∧ w.parserAlive m = false))) ∧
      ((pollLoop w f i s).2.2 = false →
        ∀ m, i ≤ m → m < i + f → w.downloaderAlive m = true) := by
  intro f
  induction f with
  | zero =>
    intro i s
    constructor
    · intro h; simp [pollLoop] at h
    · intro _ m h1 h2; omega
  | succ f ih =>
    intro i s
    by_cases hd : w.downloaderAlive i
    · constructor
      · intro hc
        have hc' : (pollLoop w f (i + 1) (pollSig w i s)).2.2 = true := by
          simpa [pollLoop, hd] using hc
        obtain ⟨j, hj1, hj2, hj3, hj4, hj5, hj6⟩ := (ih (i + 1) (pollSig w i s)).1 hc'
        have heq : (pollLoop w (f + 1) i s).2 = (pollLoop w f (i + 1) (pollSig w i s)).2 := by
          simp [pollLoop, hd]
        refine ⟨j, by omega, by omega, hj3, ?_, ?_, ?_⟩
        · intro m hm1 hm2
          rcases Nat.lt_or_ge m (i + 1) with hmi | hmi
          · have hmeq : m = i := by omega
            rw [hmeq]
            exact hd
          · exact hj4 m hmi hm2
        · rw [heq, hj5, pollSig_feeder]
          constructor
          · rintro (hx | ⟨m, hm1, hm2, hm3⟩)
            · simp only [Bool.or_eq_true] at hx
              rcases hx with hx | hx
              · exact Or.inl hx
              · exact Or.inr ⟨i, le_refl i, by omega, by simpa using hx⟩
            · exact Or.inr ⟨m, by omega, hm2, hm3⟩
          · rintro (hx | ⟨m, hm1, hm2, hm3⟩)
            · exact Or.inl (by simp [hx])
            · rcases Nat.lt_or_ge m (i + 1) with hmi | hmi
              · have hmeq : m = i := by omega
                rw [hmeq] at hm3
                exact Or.inl (by simp [hm3])
              · exact Or.inr ⟨m, hmi, hm2, hm3⟩
        · rw [heq, hj6, pollSig_parserFlag]
          constructor
          · rintro (hx | ⟨m, hm1, hm2, hm3⟩)
            · simp only [Bool.or_eq_true] at hx
              rcases hx with hx | hx
              · exact Or.inl hx
              · exact Or.inr ⟨i, le_refl i, by omega, by simpa using hx⟩
            · exact Or.inr ⟨m, by omega, hm2, hm3⟩
          · rintro (hx | ⟨m, hm1, hm2, hm3⟩)
            · exact Or.inl (by simp [hx])
            · rcases Nat.lt_or_ge m (i + 1) with hmi | hmi
              · have hmeq : m = i := by omega
                rw [hmeq] at hm3
                exact Or.inl (by simp [hm3])
              · exact Or.inr ⟨m, hmi, hm2, hm3⟩
      · intro hc m hm1 hm2
        have hc' : (pollLoop w f (i + 1) (pollSig w i s)).2.2 = false := by
          simpa [pollLoop, hd] using hc
        rcases Nat.lt_or_ge m (i + 1) with hmi | hmi
        · have hmeq : m = i := by omega
          rw [hmeq]
          exact hd
        · exact (ih (i + 1) (pollSig w i s)).2 hc' m hmi (by omega)
    · constructor
      · intro _
        refine ⟨i, le_refl i, by omega, by simpa using hd, ?_, ?_, ?_⟩
        · intro m hm1 hm2; omega
        · have heq : (pollLoop w (f + 1) i s).2.1 = pollSig w i s := by
            simp [pollLoop, hd]
          rw [heq, pollSig_feeder]
          constructor
          · intro hx
            simp only [Bool.or_eq_true] at hx
            rcases hx with hx | hx
            · exact Or.inl hx
            · exact Or.inr ⟨i, le_refl i, le_refl i, by simpa using hx⟩
          · rintro (hx | ⟨m, hm1, hm2, hm3⟩)
            · simp [hx]
            · have hmeq : m = i := by omega
              rw [hmeq] at hm3
              simp [hm3]
        · have heq : (pollLoop w (f + 1) i s).2.1 = pollSig w i s := by
            simp [pollLoop, hd]
          rw [heq, pollSig_parserFlag]
          constructor
          · intro hx
            simp only [Bool.or_eq_true] at hx
            rcases hx with hx | hx
            · exact Or.inl hx
            · exact Or.inr ⟨i, le_refl i, le_refl i, by simpa using hx⟩
          · rintro (hx | ⟨m, hm1, hm2, hm3⟩)
            · simp [hx]
            · have hmeq : m = i := by omega
              rw [hmeq] at hm3
              simp [hm3]
      · intro hc
        exact absurd hc (by simp [pollLoop, hd])

/-- C6: `crawl()` resets the signal registry and starts the feeder,
parser and downloader pools in that order (the first four actions of its
trace); the poll loop exits exactly at the first iteration where the
downloader pool has no live workers, `feeder_exited` ends set exactly
when the feeder pool was seen dead at some polled iteration up to the
exit, likewise `parser_exited`; if the fuel runs out instead, the
downloader was alive at every polled iteration. -/
theorem c6_crawl_orchestration (w : CrawlEnv) (fuel : Nat) :
    ((crawl w fuel).1.take 4 =
      [CAct.resetSignals, CAct.startFeeder, CAct.startParser, CAct.startDownloader]) ∧
    ((crawl w fuel).2.2 = true →
      ∃ j, j < fuel ∧ w.downloaderAlive j = false ∧
        (∀ m, m < j → w.downloaderAlive m = true) ∧
        ((crawl w fuel).2.1.feederExited = true ↔
          ∃ m, m ≤ j ∧ w.feederAlive m = false) ∧
        ((crawl w fuel).2.1.parserExited = true ↔
          ∃ m, m ≤ j ∧ w.parserAlive m = false)) ∧
    ((crawl w fuel).2.2 = false → ∀ m, m < fuel → w.downloaderAlive m = true) := by
  have hspec := pollLoop_spec w fuel 0 Sig.reset
  refine ⟨?_, ?_, ?_⟩
  · simp [crawl]
  · intro hc
    obtain ⟨j, _, hj2, hj3, hj4, hj5, hj6⟩ := hspec.1 hc
    refine ⟨j, by omega, hj3, fun m hm => hj4 m (by omega) hm, ?_, ?_⟩
    · rw [show (crawl w fuel).2.1 = (pollLoop w fuel 0 Sig.reset).2.1 from rfl, hj5]
      simp [Sig.reset]
    · rw [show (crawl w fuel).2.1 = (pollLoop w fuel 0 Sig.reset).2.1 from rfl, hj6]
      simp [Sig.reset]
  · intro hc m hm
    exact hspec.2 hc m (by omega) (by omega)

/-- Pool liveness for a concrete crawl: the feeder dies first, then the
parser, then the downloader at poll iteration 3. -/
def cenvCrawl2 : CrawlEnv :=
  ⟨fun i => decide (i < 1), fun i => decide (i < 2), fun i => decide (i < 3),
   true, true, false⟩

/-- Witness for `c6_crawl_orchestration` at a concrete liveness
schedule. -/
theorem c6_crawl_orchestration_witness :
    (crawl cenvCrawl2 5).2.2 = true ∧
    (∃ j, j < 5 ∧ cenvCrawl2.downloaderAlive j = false ∧
      (∀ m, m < j → cenvCrawl2.downloaderAlive m = true) ∧
      ((crawl cenvCrawl2 5).2.1.feederExited = true ↔
        ∃ m, m ≤ j ∧ cenvCrawl2.feederAlive m = false) ∧
      ((crawl cenvCrawl2 5).2.1.parserExited = true ↔
        ∃ m, m ≤ j ∧ cenvCrawl2.parserAlive m = false)) := by
  have hc : (crawl cenvCrawl2 5).2.2 = true := by decide
  exact ⟨hc, (c6_crawl_orchestration cenvCrawl2 5).2.1 hc⟩

/-! ### C7 -/

/-- The signal-setting actions of a poll iteration are only signal sets. -/
theorem pollActs_mem (w : CrawlEnv) (i : Nat) :
    ∀ a ∈ pollActs w i, a = CAct.setFeederExited ∨ a = CAct.setParserExited := by
  intro a ha
  rw [pollActs] at ha
  rcases List.mem_append.mp ha with h | h
  · by_cases hf : w.feederAlive i <;> simp [hf] at h
    exact Or.inl h
  · by_cases hp : w.parserAlive i <;> simp [hp] at h
    exact Or.inr h

/-- The poll loop performs no buffer clearing. -/
theorem pollLoop_no_clear (w : CrawlEnv) :
    ∀ f i s, ∀ a ∈ (pollLoop w f i s).1,
      a = CAct.setFeederExited ∨ a = CAct.setParserExited ∨ a = CAct.pollSleep := by
  intro f
  induction f with
  | zero => intro i s a ha; simp [pollLoop] at ha
  | succ f ih =>
    intro i s a ha
    simp only [pollLoop] at ha
    by_cases hd : w.downloaderAlive i
    · simp only [hd, if_true, List.append_assoc, List.mem_append] at ha
      rcases ha with h | h | h
      · rcases pollActs_mem w i a h with h' | h'
        · exact Or.inl h'
        · exact Or.inr (Or.inl h')
      · simp at h
        exact Or.inr (Or.inr h)
      · exact ih (i + 1) (pollSig w i s) a h
    · simp only [hd, Bool.false_eq_true, if_false] at ha
      rcases pollActs_mem w i a ha with h' | h'
      · exact Or.inl h'
      · exact Or.inr (Or.inl h')

/-- A crawl whose downloader pool is already dead at the first poll and
whose downloader input queue is empty at loop exit (the feeder queue is
not). -/
def cenvCrawl : CrawlEnv :=
  ⟨fun _ => true, fun _ => true, fun _ => false, false, true, true⟩

/-- C7 counterexample: the poll loop exits, yet no
`clear_buffer(discard_remaining = true)` call on the downloader queue
appears in the trace — the clear is guarded by a non-emptiness check
(line 189 of `crawler.py`), so with an empty downloader queue the claim's
unconditional "is cleared with forced discard" fails. -/
theorem c7_counterexample :
    (crawl cenvCrawl 1).2.2 = true ∧
    CAct.clearDownloader true ∉ (crawl cenvCrawl 1).1 ∧
    CAct.clearDownloader false ∉ (crawl cenvCrawl 1).1 := by
  decide

/-- C7 amended: after the poll loop exits, the feeder's input queue is
cleared with a soft drain exactly when non-empty, likewise the parser's;
the downloader's input queue is cleared with forced discard exactly when
non-empty; no forced clear ever targets the feeder or parser queue and
no soft clear ever targets the downloader queue. -/
theorem c7_buffer_clearing (w : CrawlEnv) (fuel : Nat)
    (hc : (crawl w fuel).2.2 = true) :
    (CAct.clearFeeder false ∈ (crawl w fuel).1 ↔ w.feederQEmpty = false) ∧
    (CAct.clearParser false ∈ (crawl w fuel).1 ↔ w.parserQEmpty = false) ∧
    (CAct.clearDownloader true ∈ (crawl w fuel).1 ↔ w.downloaderQEmpty = false) ∧
    (∀ b, CAct.clearFeeder b ∈ (crawl w fuel).1 → b = false) ∧
    (∀ b, CAct.clearParser b ∈ (crawl w fuel).1 → b = false) ∧
    (∀ b, CAct.clearDownloader b ∈ (crawl w fuel).1 → b = true) := by
  have hc' : (pollLoop w fuel 0 Sig.reset).2.2 = true := hc
  have htr : (crawl w fuel).1 =
      [CAct.resetSignals, CAct.startFeeder, CAct.startParser, CAct.startDownloader] ++
        (pollLoop w fuel 0 Sig.reset).1 ++
        ((if w.feederQEmpty then [] else [CAct.clearFeeder false]) ++
         (if w.parserQEmpty then [] else [CAct.clearParser false]) ++
         (if w.downloaderQEmpty then [] else [CAct.clearDownloader true])) := by
    simp [crawl, hc']
  have hptr : ∀ (b : Bool),
      CAct.clearFeeder b ∉ (pollLoop w fuel 0 Sig.reset).1 ∧
      CAct.clearParser b ∉ (pollLoop w fuel 0 Sig.reset).1 ∧
      CAct.clearDownloader b ∉ (pollLoop w fuel 0 Sig.reset).1 := by
    intro b
    refine ⟨fun h => ?_, fun h => ?_, fun h => ?_⟩ <;>
      rcases pollLoop_no_clear w fuel 0 Sig.reset _ h with h' | h' | h' <;> simp at h'
  refine ⟨?_, ?_, ?_, ?_, ?_, ?_⟩
  · rw [htr]
    by_cases hq : w.feederQEmpty <;>
      simp [List.mem_append, (hptr false).1, hq]
  · rw [htr]
    by_cases hq : w.parserQEmpty <;>
      simp [List.mem_append, (hptr false).2.1, hq]
  · rw [htr]
    by_cases hq : w.downloaderQEmpty <;>
      simp [List.mem_append, (hptr true).2.2, hq]
  · intro b
    rw [htr]
    intro hmem
    by_cases h1 : w.feederQEmpty <;> by_cases h2 : w.parserQEmpty <;>
      by_cases h3 : w.downloaderQEmpty <;>
      simp [List.mem_append, (hptr b).1, h1, h2, h3] at hmem <;>
      exact hmem
  · intro b
    rw [htr]
    intro hmem
    by_cases h1 : w.feederQEmpty <;> by_cases h2 : w.parserQEmpty <;>
      by_cases h3 : w.downloaderQEmpty <;>
      simp [List.mem_append, (hptr b).2.1, h1, h2, h3] at hmem <;>
      exact hmem
  · intro b
    rw [htr]
    intro hmem
    by_cases h1 : w.feederQEmpty <;> by_cases h2 : w.parserQEmpty <;>
      by_cases h3 : w.downloaderQEmpty <;>
      simp [List.mem_append, (hptr b).2.2, h1, h2, h3] at hmem <;>
      exact hmem

/-- Witness for `c7_buffer_clearing` at a concrete environment: feeder
queue non-empty and soft-drained, downloader queue empty and untouched. -/
theorem c7_buffer_clearing_witness :
    (crawl cenvCrawl 1).2.2 = true ∧
    (CAct.clearFeeder false ∈ (crawl cenvCrawl 1).1 ↔ cenvCrawl.feederQEmpty = false) ∧
    (CAct.clearDownloader true ∈ (crawl cenvCrawl 1).1 ↔ cenvCrawl.downloaderQEmpty = false) := by
  have hc : (crawl cenvCrawl 1).2.2 = true := by decide
  have h := c7_buffer_clearing cenvCrawl 1 hc
  exact ⟨hc, h.1, h.2.2.1⟩

end ICrawler
